import Mathlib

/-!
Formal model of the versioned file-store server (`src/fileserver/app.py`):
the path sandbox (`safe_path`), the revision store (`read_head`, `write_head`,
`current_rev`, `bump_rev`, `rev_list`), the file operations (`fs_read`,
`fs_write`, `fs_save`, `fs_rename`, `fs_delete`), the snapshot operation
(`fs_snapshot`) and the listing tree builder (`build_tree`).

Strings and paths are modelled exactly as the source manipulates them:
`os.path.join` and `os.path.normpath` are embedded as pure functions on
strings (implemented over `List Char` by structural recursion so that the
kernel can evaluate them on concrete inputs), and the on-disk state is an
association list from slash-free path-component lists to entries.
-/

namespace Fileserver

/-- The storage root constant, exactly as in the source (`STORAGE_ROOT = "./decisions"`). -/
def STORAGE_ROOT : String := "./decisions"

/-- Split a character list at every slash character, mirroring Python
`str.split('/')` (empty segments are kept). -/
def splitSlash : List Char → List (List Char)
  | [] => [[]]
  | c :: cs =>
    match splitSlash cs with
    | g :: gs => if c = '/' then [] :: g :: gs else (c :: g) :: gs
    | [] => [[]]

/-- Split a string at every slash, returning the list of segments
(Python `s.split('/')`). -/
def splitOnSlash (s : String) : List String :=
  (splitSlash s.data).map String.mk

/-- Boolean test that one character list starts with another. -/
def listStarts : List Char → List Char → Bool
  | _, [] => true
  | [], _ :: _ => false
  | c :: cs, d :: ds => c = d && listStarts cs ds

/-- Boolean test that string `s` starts with string `t` (Python `s.startswith(t)`). -/
def strStarts (s t : String) : Bool := listStarts s.data t.data

/-- Boolean test that string `s` ends with string `t` (Python `s.endswith(t)`). -/
def strEnds (s t : String) : Bool := listStarts s.data.reverse t.data.reverse

/-- Join a list of segments with single slashes (Python `'/'.join(l)`). -/
def joinSlash : List String → String
  | [] => ""
  | [s] => s
  | s :: rest => s ++ "/" ++ joinSlash rest

/-- Model of Python `os.path.join(a, b)` for POSIX paths, two arguments:
an absolute second argument discards the first; otherwise the two parts are
joined with a single separating slash unless one is already present. -/
def pyJoin (a b : String) : String :=
  if strStarts b "/" then b
  else if a = "" || strEnds a "/" then a ++ b
  else a ++ "/" ++ b

/-- One step of the component scan inside Python `os.path.normpath`:
empty and dot components are dropped, a dot-dot component pops the previous
component unless there is nothing to pop (relative paths keep leading
dot-dots, absolute paths drop them). -/
def normStep (absolute : Bool) (acc : List String) (comp : String) : List String :=
  if comp = "" || comp = "." then acc
  else if comp ≠ ".." || (!absolute && acc.isEmpty) || acc.getLast? = some ".." then
    acc ++ [comp]
  else if acc.isEmpty then acc
  else acc.dropLast

/-- Model of Python `os.path.normpath` for POSIX paths: collapse empty and
dot segments, resolve dot-dot segments textually, and preserve the special
leading-slash counts (one slash, or exactly two). -/
def pyNormpath (p : String) : String :=
  if p = "" then "." else
  let slashes : Nat :=
    if strStarts p "//" && !strStarts p "///" then 2
    else if strStarts p "/" then 1 else 0
  let comps := splitOnSlash p
  let newComps := comps.foldl (normStep (slashes ≠ 0)) []
  let out := String.mk (List.replicate slashes '/') ++ joinSlash newComps
  if out = "" then "." else out

/-- The path sandbox from the source:
`safe_path(sub) = os.path.normpath(os.path.join(STORAGE_ROOT, sub))`.
The source annotates this helper with a comment claiming it prevents path
traversal, but it performs normalization only, with no containment check. -/
def safe_path (sub : String) : String := pyNormpath (pyJoin STORAGE_ROOT sub)

/-- A resolved path stays within the storage root iff it is the root itself
or strictly below it (normpath strips the leading `./`, so in-root results
are exactly `decisions` or `decisions/...`). -/
def withinRoot (p : String) : Bool := p == "decisions" || strStarts p "decisions/"

/-! ### Decimal representation of naturals, and the model of Python `int()` -/

/-- Decimal digit characters of a natural number, most significant first:
the functional specification of core `Nat.toDigits 10` (hence of
`Nat.repr` and `toString` on naturals). -/
def natDigits (n : Nat) : List Char :=
  if _h : n < 10 then [Nat.digitChar n]
  else natDigits (n / 10) ++ [Nat.digitChar (n % 10)]
decreasing_by exact Nat.div_lt_self (by omega) (by omega)

/-- Numeric value of a digit string, as Python `int()` computes it. -/
def digitsVal (cs : List Char) : Nat := cs.foldl (fun a c => a * 10 + (c.toNat - 48)) 0

/-- Strip leading and trailing whitespace from a character list
(Python `str.strip()`). -/
def stripList (cs : List Char) : List Char :=
  ((cs.dropWhile Char.isWhitespace).reverse.dropWhile Char.isWhitespace).reverse

/-- Model of Python `str.strip()`. -/
def pyStrip (s : String) : String := String.mk (stripList s.data)

/-- Parse a nonempty all-digit character list; `none` otherwise. -/
def parseDigits (cs : List Char) : Option Nat :=
  if cs ≠ [] ∧ cs.all Char.isDigit then some (digitsVal cs) else none

/-- Model of Python `int(s.strip())` on text, as used by `read_head`:
optional sign followed by decimal digits (Python's underscore digit
grouping and non-ASCII digits are not modelled; the store only ever
parses the canonical output of `str(n)`). `none` models `ValueError`. -/
def pyInt (s : String) : Option Int :=
  let cs := stripList s.data
  if cs = [] then none
  else if cs.head? = some '-' then (parseDigits cs.tail).map (fun v => -(v : Int))
  else if cs.head? = some '+' then (parseDigits cs.tail).map (fun v => (v : Int))
  else (parseDigits cs).map (fun v => (v : Int))

/-! ### The on-disk state model -/

/-- One on-disk entry: a regular file with textual content, or a directory. -/
inductive Entry where
  | file (content : String)
  | dir
deriving DecidableEq

/-- A path, as the list of its slash-separated components. -/
abbrev FPath := List String

/-- The file-system state: an association list from component paths to
entries; the first match wins and the operations keep keys unique. -/
abbrev Fs := List (FPath × Entry)

/-- Error outcomes of the Python-level operations: `notFound` covers both
`FileNotFoundError` and the HTTP 404 abort; the next three mirror the
corresponding OS exceptions; `invalidArg` is `EINVAL` (renaming a directory
into itself); `valueError` is a failed `int()` parse. -/
inductive PyErr where
  | notFound
  | isADirectoryError
  | notADirectoryError
  | fileExistsError
  | invalidArg
  | valueError
deriving DecidableEq

/-- Interpret a slash-separated path string as its component list, the way
the operating system resolves it: empty and dot components are skipped. -/
def comps (s : String) : FPath :=
  (splitOnSlash s).filter (fun c => decide (c ≠ "" ∧ c ≠ "."))

def lookupFs : Fs → FPath → Option Entry
  | [], _ => none
  | (k', e) :: rest, k => if k' = k then some e else lookupFs rest k

/-- Python `os.path.exists` on a resolved path. -/
def existsFs (fs : Fs) (k : FPath) : Bool := (lookupFs fs k).isSome

/-- Python `os.path.isdir` on a resolved path. -/
def isdirFs (fs : Fs) (k : FPath) : Bool :=
  match lookupFs fs k with
  | some .dir => true
  | _ => false

/-- Remove every binding of key `k`. -/
def eraseKey : Fs → FPath → Fs
  | [], _ => []
  | kv :: rest, k => if kv.1 = k then eraseKey rest k else kv :: eraseKey rest k

/-- Bind key `k` to entry `e`, dropping any previous binding. -/
def setFs (fs : Fs) (k : FPath) (e : Entry) : Fs := (k, e) :: eraseKey fs k

/-- The nonempty initial segments of a path, shortest first. -/
def initSegs (k : FPath) : List FPath := (List.range k.length).map (fun i => k.take (i + 1))

/-- Walk the initial segments of the target inside `makedirs`: missing
intermediate components are created as directories, a regular file along
the chain raises `NotADirectoryError`, and the final component applies the
`exist_ok` rule. -/
def makedirsGo (existOk : Bool) : Fs → List FPath → Except PyErr Fs
  | fs, [] => .ok fs
  | fs, [seg] =>
    match lookupFs fs seg with
    | none => .ok (setFs fs seg .dir)
    | some .dir => if existOk then .ok fs else .error .fileExistsError
    | some (.file _) => .error .fileExistsError
  | fs, seg :: rest =>
    match lookupFs fs seg with
    | none => makedirsGo existOk (setFs fs seg .dir) rest
    | some .dir => makedirsGo existOk fs rest
    | some (.file _) => .error .notADirectoryError

/-- Python `os.makedirs(target, exist_ok)`.  The empty path models
`makedirs('')`, which raises `FileNotFoundError`. -/
def makedirs (fs : Fs) (k : FPath) (existOk : Bool) : Except PyErr Fs :=
  if k = [] then .error .notFound
  else makedirsGo existOk fs (initSegs k)

/-- Universal-newline translation performed by Python when a file is read
in text mode (`open(path, "r", encoding="utf-8")` leaves `newline` at its
default `None`): each `"\r\n"` pair and each remaining lone `"\r"` becomes
`"\n"`. -/
def univNL : List Char → List Char
  | [] => []
  | c :: rest =>
    if c = '\r' then
      match rest with
      | d :: rest2 =>
        if d = '\n' then '\n' :: univNL rest2 else '\n' :: univNL (d :: rest2)
      | [] => ['\n']
    else c :: univNL rest

/-- Python `open(path, "r", encoding="utf-8").read()` on a resolved path:
text mode, so the stored content comes back with universal-newline
translation applied. -/
def openRead (fs : Fs) (k : FPath) : Except PyErr String :=
  match lookupFs fs k with
  | some (.file c) => .ok (String.mk (univNL c.data))
  | some .dir => .error .isADirectoryError
  | none => .error .notFound

/-- Python `open(path, "w")` followed by writing `c`: fails on a directory
target and on a missing or non-directory parent, otherwise creates or fully
overwrites the file.  Text-mode writing translates `"\n"` to `os.linesep`,
which is `"\n"` itself on the POSIX platforms the server targets, so the
content is stored verbatim. -/
def openWrite (fs : Fs) (k : FPath) (c : String) : Except PyErr Fs :=
  if k = [] then .error .notFound
  else match lookupFs fs k with
  | some .dir => .error .isADirectoryError
  | some (.file _) => .ok (setFs fs k (.file c))
  | none =>
    if k.dropLast = [] then .ok (setFs fs k (.file c))
    else match lookupFs fs k.dropLast with
      | some .dir => .ok (setFs fs k (.file c))
      | some (.file _) => .error .notADirectoryError
      | none => .error .notFound

/-- Rebase a key from below `src` to below `dst`. -/
def rebase (src dst k : FPath) : FPath := dst ++ k.drop src.length

/-- The bindings of the subtree rooted at `src`, rebased below `dst`. -/
def rebaseAll (src dst : FPath) : Fs → Fs
  | [] => []
  | kv :: rest =>
    if src <+: kv.1 then (rebase src dst kv.1, kv.2) :: rebaseAll src dst rest
    else rebaseAll src dst rest

/-- Python `shutil.copytree src dst`: duplicate the whole subtree rooted at
`src` as a new subtree rooted at `dst`; fails when `dst` already exists. -/
def copytree (fs : Fs) (src dst : FPath) : Except PyErr Fs :=
  if existsFs fs dst then .error .fileExistsError
  else .ok (rebaseAll src dst fs ++ fs)

/-- Python `shutil.copy2 src dst` for a regular file `src` (timestamp
metadata is outside the model). -/
def copy2 (fs : Fs) (src dst : FPath) : Except PyErr Fs :=
  match lookupFs fs src with
  | some (.file c) => .ok (setFs fs dst (.file c))
  | some .dir => .error .isADirectoryError
  | none => .error .notFound

/-- Python `os.listdir`: the names of the immediate children of `k`, in
on-disk (association-list) order. -/
def listdir : Fs → FPath → List String
  | [], _ => []
  | kv :: rest, k =>
    if k <+: kv.1 ∧ kv.1.length = k.length + 1 then kv.1.getLastD "" :: listdir rest k
    else listdir rest k

/-- The literal `head_path` of the source: `os.path.join(STORAGE_ROOT, "HEAD")`. -/
def head_path : String := pyJoin STORAGE_ROOT "HEAD"

/-- Model of `read_head`: open the HEAD file and parse its content with
`int(...)` after stripping. -/
def read_head (fs : Fs) : Except PyErr Int := do
  let s ← openRead fs (comps head_path)
  match pyInt s with
  | some n => .ok n
  | none => .error .valueError

/-- Model of `write_head(n)`: overwrite the HEAD file with `str(n)`. -/
def write_head (fs : Fs) (n : Int) : Except PyErr Fs :=
  openWrite fs (comps head_path) (toString n)

/-- Model of `current_rev()`. -/
def current_rev (fs : Fs) : Except PyErr Int := read_head fs

/-- Model of `bump_rev()`: read HEAD, create the directory for the next
number with `exist_ok=False`, persist HEAD, return the number. -/
def bump_rev (fs : Fs) : Except PyErr (Fs × Int) := do
  let h ← current_rev fs
  let n := h + 1
  let fs ← makedirs fs (comps (pyJoin STORAGE_ROOT (toString n))) false
  let fs ← write_head fs n
  .ok (fs, n)

/-- Model of the `fs_read` endpoint: 404 when the resolved path does not
exist, else the full text content with status 200. -/
def fs_read (fs : Fs) (p : String) : Except PyErr (String × Nat) := do
  let k := comps (safe_path p)
  if existsFs fs k then do
    let c ← openRead fs k
    .ok (c, 200)
  else .error .notFound

/-- Model of the `fs_write` endpoint: create the parent chain of the
resolved target, write the content, status 201. -/
def fs_write (fs : Fs) (p content : String) : Except PyErr (Fs × Nat) := do
  let k := comps (safe_path p)
  let fs ← makedirs fs k.dropLast true
  let fs ← openWrite fs k content
  .ok (fs, 201)

/-- Model of the `fs_save` endpoint (`/api/fs/save`): the source duplicates
the body of `fs_write` verbatim. -/
def fs_save (fs : Fs) (p content : String) : Except PyErr (Fs × Nat) := do
  let k := comps (safe_path p)
  let fs ← makedirs fs k.dropLast true
  let fs ← openWrite fs k content
  .ok (fs, 201)

/-- Model of the `fs_snapshot` endpoint: resolve the current revision
directory, allocate the next revision, then copy every child of the source
directory into the destination. -/
def fs_snapshot (fs : Fs) : Except PyErr (Fs × Int) := do
  let h ← current_rev fs
  let src := comps (safe_path (toString h))
  let (fs, n) ← bump_rev fs
  let dst := comps (safe_path (toString n))
  let fs ← makedirs fs dst true
  let names := listdir fs src
  let fs ← names.foldlM (fun fs name =>
      if isdirFs fs (src ++ [name]) then copytree fs (src ++ [name]) (dst ++ [name])
      else copy2 fs (src ++ [name]) (dst ++ [name])) fs
  .ok (fs, n)

/-- Python `list(range(m))` for an integer bound, as a list of integers. -/
def pyRange (m : Int) : List Int := (List.range m.toNat).map (fun i : Nat => (i : Int))

/-- Model of the `rev_list` endpoint: the persisted HEAD paired with
`list(range(head + 1))`. -/
def rev_list (fs : Fs) : Except PyErr (Int × List Int) := do
  let h ← current_rev fs
  .ok (h, pyRange (h + 1))

/-- The on-disk state that the startup code guarantees: the storage root,
revision `0`, and a HEAD file holding `"0"`. -/
def initStore : Fs :=
  [(["decisions"], .dir), (["decisions", "0"], .dir), (["decisions", "HEAD"], .file "0")]

/-- The state reached from `initStore` by writing "hello" to `a/b.txt`. -/
def wStore1 : Fs :=
  [(["decisions", "a", "b.txt"], .file "hello"), (["decisions", "a"], .dir),
   (["decisions"], .dir), (["decisions", "0"], .dir), (["decisions", "HEAD"], .file "0")]

/-- The state reached from `initStore` by saving "x" to `n.txt`. -/
def wStore2 : Fs :=
  [(["decisions", "n.txt"], .file "x"), (["decisions"], .dir),
   (["decisions", "0"], .dir), (["decisions", "HEAD"], .file "0")]

/-- The state reached from `initStore` by writing the carriage-return
content `"x\ry\r\nz"` to `c.txt`. -/
def wStoreCR : Fs :=
  [(["decisions", "c.txt"], .file "x\ry\r\nz"), (["decisions"], .dir),
   (["decisions", "0"], .dir), (["decisions", "HEAD"], .file "0")]

/-- A store whose revision `0` holds one file `a`. -/
def wStore3 : Fs :=
  [(["decisions"], .dir), (["decisions", "0"], .dir),
   (["decisions", "0", "a"], .file "A"), (["decisions", "HEAD"], .file "0")]

/-- The state produced by snapshotting `wStore3`. -/
def wSnapFs : Fs :=
  [(["decisions", "1", "a"], .file "A"), (["decisions", "HEAD"], .file "1"),
   (["decisions", "1"], .dir), (["decisions"], .dir),
   (["decisions", "0"], .dir), (["decisions", "0", "a"], .file "A")]

/-- The on-disk key of the directory of revision `n`. -/
def revKey (n : Nat) : FPath := ["decisions", Nat.repr n]

/-- Well-formedness of the store at head value `h`: keys are unique,
ancestors of every key are directories, the root directory exists, HEAD
holds the canonical text of `h`, the revision directories present are
exactly `0 .. h`, and nothing exists at or below any higher-numbered
revision key. -/
structure WfStore (fs : Fs) (h : Nat) : Prop where
  nodupKeys : (fs.map Prod.fst).Nodup
  pfxClosed : ∀ k ∈ fs.map Prod.fst, ∀ i, 0 < i → i < k.length →
    lookupFs fs (k.take i) = some .dir
  rootDir : lookupFs fs ["decisions"] = some .dir
  headFile : lookupFs fs (comps head_path) = some (.file (Nat.repr h))
  revDirs : ∀ n : Nat, n ≤ h → lookupFs fs (revKey n) = some .dir
  aboveAbsent : ∀ n : Nat, h < n → ∀ rest : FPath, lookupFs fs (revKey n ++ rest) = none

/-- The state a successful `bump_rev` produces from a store at head `h`:
the new revision directory is created, then HEAD is overwritten. -/
def bumpFs (fs : Fs) (h : Nat) : Fs :=
  setFs (setFs fs (revKey (h + 1)) .dir) (comps head_path) (.file (Nat.repr (h + 1)))

/-- The store state after `k` successive successful allocations starting
at head `h`. -/
def bumpIterFs : Fs → Nat → Nat → Fs
  | fs, _, 0 => fs
  | fs, h, k + 1 => bumpIterFs (bumpFs fs h) (h + 1) k

/-- A sequence of `k` allocation calls, returning the allocated numbers in
order. -/
def allocCalls : Fs → Nat → Except PyErr (Fs × List Int)
  | fs, 0 => .ok (fs, [])
  | fs, k + 1 => do
    let (fs₁, n) ← bump_rev fs
    let (fs₂, L) ← allocCalls fs₁ k
    .ok (fs₂, n :: L)

instance decEqExcept {ε α : Type} [DecidableEq ε] [DecidableEq α] :
    DecidableEq (Except ε α) := fun a b =>
  match a, b with
  | .ok x, .ok y =>
    if h : x = y then isTrue (by rw [h]) else isFalse (by intro hc; cases hc; exact h rfl)
  | .error x, .error y =>
    if h : x = y then isTrue (by rw [h]) else isFalse (by intro hc; cases hc; exact h rfl)
  | .ok _, .error _ => isFalse (by intro hc; cases hc)
  | .error _, .ok _ => isFalse (by intro hc; cases hc)

/-! ### The listing tree builder -/

/-- One on-disk entry as `os.scandir` yields it, in on-disk listing
order: a regular file with its stat fields, or a directory with its stat
time, its readability (an unreadable directory raises `PermissionError`,
which `build_tree` catches, keeping an empty listing for it), and its own
entries. -/
inductive DiskEntry where
  | file (name : String) (mtime : Int) (size : Int)
  | dir (name : String) (mtime : Int) (readable : Bool) (entries : List DiskEntry)

/-- One node of the listing that `build_tree` produces: the source builds
a dict with `name`, `path`, `isDirectory`, `modified`, `size` (files
only) and, for directories, the recursively built `children`. -/
inductive ApiNode where
  | file (name : String) (path : String) (modified : Int) (size : Int)
  | dir (name : String) (path : String) (modified : Int) (children : List ApiNode)

def ApiNode.name : ApiNode → String
  | .file n _ _ _ => n
  | .dir n _ _ _ => n

def ApiNode.isDirectory : ApiNode → Bool
  | .file _ _ _ _ => false
  | .dir _ _ _ _ => true

/-- Python `str.lower()`, modelled by per-character lowering. -/
def pyLower (s : String) : String := String.mk (s.data.map Char.toLower)

/-- The first component of the sort key `(not isDirectory, name.lower())`
as a number: directories rank 0, files rank 1. -/
def nodeRank (n : ApiNode) : Nat := if n.isDirectory then 0 else 1

/-- Code-point lexicographic comparison of character lists, the order
Python uses to compare strings. -/
def lexLE : List Char → List Char → Bool
  | [], _ => true
  | _ :: _, [] => false
  | a :: as, b :: bs => if a.toNat = b.toNat then lexLE as bs else decide (a.toNat < b.toNat)

/-- Python string comparison: code-point lexicographic. -/
def strLE (a b : String) : Bool := lexLE a.data b.data

/-- The comparison the listing is sorted by: lexicographic order on the
Python key tuple `(not n["isDirectory"], n["name"].lower())`. -/
def nodeKeyLE (a b : ApiNode) : Bool :=
  decide (nodeRank a < nodeRank b) ||
    (decide (nodeRank a = nodeRank b) &&
      strLE (pyLower (ApiNode.name a)) (pyLower (ApiNode.name b)))

/-- The sort comparison as a relation. -/
def NodeLE (a b : ApiNode) : Prop := nodeKeyLE a b = true

instance : DecidableRel NodeLE := fun a b => instDecidableEqBool (nodeKeyLE a b) true

/-- Python `list.sort(key=...)` is a stable sort; any stable sort by the
same total preorder computes the same list, and the model uses stable
insertion sort. -/
def sortNodes (l : List ApiNode) : List ApiNode := List.insertionSort NodeLE l

mutual

/-- Build the node for one scandir entry (the loop body of `build_tree`);
a directory's children are the recursively built, sorted listing (empty
when unreadable). -/
def entryNode : String → DiskEntry → ApiNode
  | rel, .file n m sz => .file n (pyJoin rel n) m sz
  | rel, .dir n m r es =>
    .dir n (pyJoin rel n) m (if r then sortNodes (entryList (pyJoin rel n) es) else [])

def entryList : String → List DiskEntry → List ApiNode
  | _, [] => []
  | rel, e :: es => entryNode rel e :: entryList rel es
end

/-- Model of `build_tree(root_path, rel_path)` on a directory with the
given readability and scandir listing: build one node per entry, then
sort directories first and case-insensitively alphabetically within each
group. -/
def build_tree (readable : Bool) (entries : List DiskEntry) (rel : String) : List ApiNode :=
  if readable then sortNodes (entryList rel entries) else []

/-- Boolean check that consecutive and non-consecutive pairs of a node
list are in sort order. -/
def pairwiseLE : List ApiNode → Bool
  | [] => true
  | a :: l => l.all (fun b => nodeKeyLE a b) && pairwiseLE l

mutual

/-- Boolean check that a node, and recursively all its descendants, have
sorted child listings. -/
def nodeSorted : ApiNode → Bool
  | .file _ _ _ _ => true
  | .dir _ _ _ children => pairwiseLE children && listSorted children

def listSorted : List ApiNode → Bool
  | [] => true
  | a :: l => nodeSorted a && listSorted l
end

/-- Boolean check that a listing is sorted at every level. -/
def forestSorted (l : List ApiNode) : Bool := pairwiseLE l && listSorted l

/-- A concrete scandir listing with mixed files, directories and case. -/
def wTree : List DiskEntry :=
  [.file "b.TXT" 5 10, .dir "sub" 3 true [.file "y" 1 2, .dir "A" 1 true []],
   .file "a" 4 1, .dir "Z" 2 true []]

/-! ### Theorems -/

example : safe_path "a/b.txt" = "decisions/a/b.txt" := by decide

example : safe_path "" = "decisions" := by decide

example : safe_path "../evil" = "evil" := by decide

theorem toDigitsCore_eq_natDigits (n : Nat) :
    ∀ (f : Nat) (ds : List Char), n < f →
      Nat.toDigitsCore 10 f n ds = natDigits n ++ ds := by
  induction n using Nat.strong_induction_on with
  | _ n ih =>
    intro f ds hf
    match f with
    | 0 => omega
    | f + 1 =>
      simp only [Nat.toDigitsCore]
      by_cases h : n / 10 = 0
      · have hn : n < 10 := by omega
        rw [if_pos h, natDigits, dif_pos hn, Nat.mod_eq_of_lt hn]
        rfl
      · have hn : ¬ n < 10 := by omega
        rw [if_neg h, ih (n / 10) (Nat.div_lt_self (by omega) (by omega)) f
              (Nat.digitChar (n % 10) :: ds) (by omega)]
        conv_rhs => rw [natDigits]
        rw [dif_neg hn]
        simp

theorem repr_eq_natDigits (n : Nat) : Nat.repr n = String.mk (natDigits n) := by
  show (Nat.toDigits 10 n).asString = String.mk (natDigits n)
  rw [Nat.toDigits, toDigitsCore_eq_natDigits n (n + 1) [] (Nat.lt_succ_self n)]
  simp [List.asString]

theorem digitChar_isDigit (d : Nat) (h : d < 10) : (Nat.digitChar d).isDigit = true := by
  interval_cases d <;> decide

theorem digitChar_val (d : Nat) (h : d < 10) : (Nat.digitChar d).toNat - 48 = d := by
  interval_cases d <;> decide

theorem natDigits_all_digit (n : Nat) : ∀ c ∈ natDigits n, c.isDigit = true := by
  induction n using Nat.strong_induction_on with
  | _ n ih =>
    intro c hc
    by_cases h : n < 10
    · rw [natDigits, dif_pos h] at hc
      simp only [List.mem_singleton] at hc
      exact hc ▸ digitChar_isDigit n h
    · rw [natDigits, dif_neg h] at hc
      rcases List.mem_append.mp hc with h1 | h1
      · exact ih (n / 10) (Nat.div_lt_self (by omega) (by omega)) c h1
      · simp only [List.mem_singleton] at h1
        exact h1 ▸ digitChar_isDigit (n % 10) (Nat.mod_lt n (by omega))

theorem natDigits_ne_nil (n : Nat) : natDigits n ≠ [] := by
  by_cases h : n < 10
  · rw [natDigits, dif_pos h]; simp
  · rw [natDigits, dif_neg h]; simp

theorem digitsVal_aux (n : Nat) :
    ∀ a : Nat, (natDigits n).foldl (fun a c => a * 10 + (c.toNat - 48)) a
      = a * 10 ^ (natDigits n).length + n := by
  induction n using Nat.strong_induction_on with
  | _ n ih =>
    intro a
    by_cases h : n < 10
    · rw [natDigits, dif_pos h]
      simp [digitChar_val n h]
    · rw [natDigits, dif_neg h]
      rw [List.foldl_append, ih (n / 10) (Nat.div_lt_self (by omega) (by omega)) a]
      simp only [List.foldl_cons, List.foldl_nil, List.length_append, List.length_singleton]
      rw [digitChar_val (n % 10) (Nat.mod_lt n (by omega)), pow_succ]
      have : a * 10 ^ (natDigits (n / 10)).length * 10 = a * (10 ^ (natDigits (n / 10)).length * 10) := by ring
      omega

theorem digitsVal_natDigits (n : Nat) : digitsVal (natDigits n) = n := by
  rw [digitsVal, digitsVal_aux n 0]; simp

theorem dropWhile_eq_self_of_not (p : Char → Bool) (cs : List Char)
    (h : ∀ c ∈ cs, p c = false) : cs.dropWhile p = cs := by
  cases cs with
  | nil => rfl
  | cons c cs => rw [List.dropWhile_cons, h c (by simp)]; simp

theorem stripList_of_not_ws (cs : List Char) (hw : ∀ c ∈ cs, c.isWhitespace = false) :
    stripList cs = cs := by
  rw [stripList, dropWhile_eq_self_of_not _ _ hw,
    dropWhile_eq_self_of_not _ _ (by intro c hc; exact hw c (List.mem_reverse.mp hc)),
    List.reverse_reverse]

theorem digitChar_not_ws (d : Nat) (h : d < 10) : (Nat.digitChar d).isWhitespace = false := by
  interval_cases d <;> decide

theorem natDigits_not_ws (n : Nat) : ∀ c ∈ natDigits n, c.isWhitespace = false := by
  induction n using Nat.strong_induction_on with
  | _ n ih =>
    intro c hc
    by_cases h : n < 10
    · rw [natDigits, dif_pos h] at hc
      simp only [List.mem_singleton] at hc
      exact hc ▸ digitChar_not_ws n h
    · rw [natDigits, dif_neg h] at hc
      rcases List.mem_append.mp hc with h1 | h1
      · exact ih (n / 10) (Nat.div_lt_self (by omega) (by omega)) c h1
      · simp only [List.mem_singleton] at h1
        exact h1 ▸ digitChar_not_ws (n % 10) (Nat.mod_lt n (by omega))

theorem pyInt_repr (n : Nat) : pyInt (Nat.repr n) = some (n : Int) := by
  rw [repr_eq_natDigits]
  simp only [pyInt]
  rw [stripList_of_not_ws _ (natDigits_not_ws n)]
  rcases hd : natDigits n with _ | ⟨c, rest⟩
  · exact absurd hd (natDigits_ne_nil n)
  · have hcd : c.isDigit = true := natDigits_all_digit n c (by rw [hd]; simp)
    have hc1 : ¬ (c :: rest : List Char).head? = some '-' := by
      simp only [List.head?_cons, Option.some.injEq]
      intro h; rw [h] at hcd; exact absurd hcd (by decide)
    have hc2 : ¬ (c :: rest : List Char).head? = some '+' := by
      simp only [List.head?_cons, Option.some.injEq]
      intro h; rw [h] at hcd; exact absurd hcd (by decide)
    rw [if_neg (by simp), if_neg hc1, if_neg hc2, parseDigits, if_pos]
    · rw [← hd, digitsVal_natDigits]; rfl
    · constructor
      · simp
      · rw [List.all_eq_true, ← hd]; exact natDigits_all_digit n

theorem repr_injective (m n : Nat) (h : Nat.repr m = Nat.repr n) : m = n := by
  have h1 := pyInt_repr m
  rw [h, pyInt_repr n] at h1
  have : (n : Int) = (m : Int) := by simpa using h1
  omega

theorem repr_ne_HEAD (n : Nat) : Nat.repr n ≠ "HEAD" := by
  intro h
  have h1 := pyInt_repr n
  rw [h] at h1
  have h2 : pyInt "HEAD" = none := by decide
  rw [h2] at h1
  exact Option.noConfusion h1

/-! ### Universal-newline translation -/

theorem univNL_cons_ne (c : Char) (rest : List Char) (hc : c ≠ '\r') :
    univNL (c :: rest) = c :: univNL rest := by
  rw [univNL.eq_def]
  simp only [if_neg hc]

theorem univNL_cr_nil : univNL ['\r'] = ['\n'] := rfl

theorem univNL_crlf (t : List Char) : univNL ('\r' :: '\n' :: t) = '\n' :: univNL t := by
  rw [univNL.eq_def]
  simp

theorem univNL_cr_cons (e : Char) (t : List Char) (he : e ≠ '\n') :
    univNL ('\r' :: e :: t) = '\n' :: univNL (e :: t) := by
  rw [univNL.eq_def]
  simp [he]

theorem univNL_append_no_cr (xs ys : List Char) (hx : '\r' ∉ xs) :
    univNL (xs ++ ys) = xs ++ univNL ys := by
  induction xs with
  | nil => rfl
  | cons c t ih =>
    have hc : c ≠ '\r' := fun h => hx (h ▸ List.mem_cons_self c t)
    rw [List.cons_append, univNL_cons_ne c (t ++ ys) hc,
      ih (fun hm => hx (List.mem_cons_of_mem c hm)), List.cons_append]

theorem univNL_no_cr (xs : List Char) (hx : '\r' ∉ xs) : univNL xs = xs := by
  have h := univNL_append_no_cr xs [] hx
  rw [List.append_nil] at h
  rw [h, show univNL [] = [] from rfl, List.append_nil]

theorem univNL_append : ∀ (xs ys : List Char),
    (∀ d, ys.head? = some d → d ≠ '\n') →
    univNL (xs ++ ys) = univNL xs ++ univNL ys
  | [], ys, _ => by rw [List.nil_append]; rfl
  | c :: t, ys, hy => by
    by_cases hc : c = '\r'
    · subst hc
      rcases t with _ | ⟨e, u⟩
      · rcases ys with _ | ⟨e, u⟩
        · rw [List.append_nil]; rfl
        · have he : e ≠ '\n' := hy e rfl
          show univNL ('\r' :: e :: u) = univNL ['\r'] ++ univNL (e :: u)
          rw [univNL_cr_cons e u he, univNL_cr_nil, List.singleton_append]
      · by_cases he : e = '\n'
        · subst he
          show univNL ('\r' :: '\n' :: (u ++ ys)) = univNL ('\r' :: '\n' :: u) ++ univNL ys
          rw [univNL_crlf, univNL_crlf, univNL_append u ys hy, List.cons_append]
        · show univNL ('\r' :: e :: (u ++ ys)) = univNL ('\r' :: e :: u) ++ univNL ys
          rw [univNL_cr_cons e (u ++ ys) he, univNL_cr_cons e u he,
            ← List.cons_append, univNL_append (e :: u) ys hy, List.cons_append]
    · rw [List.cons_append, univNL_cons_ne c (t ++ ys) hc, univNL_cons_ne c t hc,
        univNL_append t ys hy, List.cons_append]

theorem univNL_ws : ∀ (l : List Char), (∀ c ∈ l, c.isWhitespace = true) →
    ∀ d ∈ univNL l, d.isWhitespace = true
  | [], _, d, hd => absurd (by rw [show univNL [] = [] from rfl] at hd; exact hd)
      (List.not_mem_nil d)
  | c :: t, h, d, hd => by
    by_cases hc : c = '\r'
    · subst hc
      rcases t with _ | ⟨e, u⟩
      · rw [univNL_cr_nil] at hd
        simp only [List.mem_singleton] at hd
        subst hd; decide
      · by_cases he : e = '\n'
        · subst he
          rw [univNL_crlf] at hd
          rcases List.mem_cons.mp hd with h1 | h1
          · subst h1; decide
          · exact univNL_ws u
              (fun x hx => h x (List.mem_cons_of_mem _ (List.mem_cons_of_mem _ hx))) d h1
        · rw [univNL_cr_cons e u he] at hd
          rcases List.mem_cons.mp hd with h1 | h1
          · subst h1; decide
          · exact univNL_ws (e :: u) (fun x hx => h x (List.mem_cons_of_mem _ hx)) d h1
    · rw [univNL_cons_ne c t hc] at hd
      rcases List.mem_cons.mp hd with h1 | h1
      · subst h1; exact h _ (List.mem_cons_self _ _)
      · exact univNL_ws t (fun x hx => h x (List.mem_cons_of_mem c hx)) d h1

theorem dropWhile_append_all (p : Char → Bool) (a l : List Char)
    (h : ∀ c ∈ a, p c = true) : (a ++ l).dropWhile p = l.dropWhile p := by
  induction a with
  | nil => rfl
  | cons x t ih =>
    rw [List.cons_append, List.dropWhile_cons, if_pos (h x (List.mem_cons_self x t))]
    exact ih (fun c hc => h c (List.mem_cons_of_mem x hc))

theorem mem_of_head_eq {l : List Char} {d : Char} (h : l.head? = some d) : d ∈ l := by
  cases l with
  | nil => exact Option.noConfusion h
  | cons x t =>
    simp only [List.head?_cons, Option.some.injEq] at h
    subst h
    exact List.mem_cons_self x t

theorem mem_of_getLast_eq {l : List Char} {d : Char} (h : l.getLast? = some d) : d ∈ l := by
  have h2 : l.reverse.head? = some d := by rw [List.head?_reverse]; exact h
  exact List.mem_reverse.mp (mem_of_head_eq h2)

theorem stripList_sandwich (a cs b : List Char)
    (ha : ∀ c ∈ a, c.isWhitespace = true) (hb : ∀ c ∈ b, c.isWhitespace = true)
    (hne : cs ≠ [])
    (hh : ∀ d, cs.head? = some d → d.isWhitespace = false)
    (hl : ∀ d, cs.getLast? = some d → d.isWhitespace = false) :
    stripList (a ++ (cs ++ b)) = cs := by
  obtain ⟨c0, t, rfl⟩ := List.exists_cons_of_ne_nil hne
  rw [stripList, dropWhile_append_all _ a _ ha, List.cons_append, List.dropWhile_cons,
    if_neg (by rw [hh c0 rfl]; simp), ← List.cons_append, List.reverse_append,
    dropWhile_append_all _ _ _ (fun c hc => hb c (List.mem_reverse.mp hc))]
  have hne2 : (c0 :: t).reverse ≠ [] := by simp
  obtain ⟨d0, w, hw⟩ := List.exists_cons_of_ne_nil hne2
  have hd0 : (c0 :: t).getLast? = some d0 := by
    rw [← List.head?_reverse, hw]; rfl
  rw [hw, List.dropWhile_cons, if_neg (by rw [hl d0 hd0]; simp), ← hw,
    List.reverse_reverse]

theorem stripList_decomp (l : List Char) :
    ∃ a b, l = a ++ (stripList l ++ b) ∧
      (∀ c ∈ a, c.isWhitespace = true) ∧ (∀ c ∈ b, c.isWhitespace = true) := by
  refine ⟨l.takeWhile Char.isWhitespace,
    ((l.dropWhile Char.isWhitespace).reverse.takeWhile Char.isWhitespace).reverse,
    ?_, ?_, ?_⟩
  · have h1 : l.takeWhile Char.isWhitespace ++ l.dropWhile Char.isWhitespace = l :=
      List.takeWhile_append_dropWhile Char.isWhitespace l
    have h2 : (l.dropWhile Char.isWhitespace).reverse.takeWhile Char.isWhitespace ++
        (l.dropWhile Char.isWhitespace).reverse.dropWhile Char.isWhitespace =
        (l.dropWhile Char.isWhitespace).reverse :=
      List.takeWhile_append_dropWhile Char.isWhitespace
        (l.dropWhile Char.isWhitespace).reverse
    have h3 := congrArg List.reverse h2
    rw [List.reverse_append, List.reverse_reverse] at h3
    have h4 : stripList l ++
        ((l.dropWhile Char.isWhitespace).reverse.takeWhile Char.isWhitespace).reverse =
        l.dropWhile Char.isWhitespace := by
      rw [stripList]; exact h3
    rw [h4]
    exact h1.symm
  · intro c hc
    exact List.mem_takeWhile_imp hc
  · intro c hc
    exact List.mem_takeWhile_imp (List.mem_reverse.mp hc)

theorem isDigit_not_ws (d : Char) (h : d.isDigit = true) : d.isWhitespace = false := by
  by_contra hw
  rw [Bool.not_eq_false] at hw
  simp only [Char.isWhitespace, Bool.or_eq_true, decide_eq_true_eq, or_assoc] at hw
  rcases hw with h1 | h1 | h1 | h1 <;> subst h1 <;> exact absurd h (by decide)

theorem pyInt_shape (s : String) (n : Int) (h : pyInt s = some n) :
    stripList s.data ≠ [] ∧ ∀ d ∈ stripList s.data, d.isWhitespace = false := by
  simp only [pyInt] at h
  by_cases h0 : stripList s.data = []
  · rw [if_pos h0] at h; exact absurd h (by simp)
  rw [if_neg h0] at h
  refine ⟨h0, ?_⟩
  obtain ⟨c0, t, hct⟩ := List.exists_cons_of_ne_nil h0
  rw [hct] at h
  intro d hd
  rw [hct] at hd
  by_cases h1 : c0 = '-'
  · subst h1
    rw [if_pos (show (('-' :: t : List Char)).head? = some '-' from rfl)] at h
    have hpd : ∃ v, parseDigits t = some v := by
      rcases hp : parseDigits t with _ | v
      · rw [show (('-' :: t : List Char)).tail = t from rfl, hp] at h
        exact absurd h (by simp)
      · exact ⟨v, rfl⟩
    obtain ⟨v, hv⟩ := hpd
    rw [parseDigits] at hv
    by_cases hc : t ≠ [] ∧ t.all Char.isDigit
    · rcases List.mem_cons.mp hd with hm | hm
      · subst hm; decide
      · exact isDigit_not_ws d (List.all_eq_true.mp hc.2 d hm)
    · rw [if_neg hc] at hv; exact Option.noConfusion hv
  · have hn1 : ¬ ((c0 :: t : List Char).head? = some '-') := by
      simp only [List.head?_cons, Option.some.injEq]; exact h1
    rw [if_neg hn1] at h
    by_cases h2 : c0 = '+'
    · subst h2
      rw [if_pos (show (('+' :: t : List Char)).head? = some '+' from rfl)] at h
      have hpd : ∃ v, parseDigits t = some v := by
        rcases hp : parseDigits t with _ | v
        · rw [show (('+' :: t : List Char)).tail = t from rfl, hp] at h
          exact absurd h (by simp)
        · exact ⟨v, rfl⟩
      obtain ⟨v, hv⟩ := hpd
      rw [parseDigits] at hv
      by_cases hc : t ≠ [] ∧ t.all Char.isDigit
      · rcases List.mem_cons.mp hd with hm | hm
        · subst hm; decide
        · exact isDigit_not_ws d (List.all_eq_true.mp hc.2 d hm)
      · rw [if_neg hc] at hv; exact Option.noConfusion hv
    · have hn2 : ¬ ((c0 :: t : List Char).head? = some '+') := by
        simp only [List.head?_cons, Option.some.injEq]; exact h2
      rw [if_neg hn2] at h
      have hpd : ∃ v, parseDigits (c0 :: t) = some v := by
        rcases hp : parseDigits (c0 :: t) with _ | v
        · rw [hp] at h
          exact absurd h (by simp)
        · exact ⟨v, rfl⟩
      obtain ⟨v, hv⟩ := hpd
      rw [parseDigits] at hv
      by_cases hc : (c0 :: t : List Char) ≠ [] ∧ (c0 :: t).all Char.isDigit
      · exact isDigit_not_ws d (List.all_eq_true.mp hc.2 d hd)
      · rw [if_neg hc] at hv; exact Option.noConfusion hv

theorem pyInt_univNL (s : String) (n : Int) (h : pyInt s = some n) :
    pyInt (String.mk (univNL s.data)) = some n := by
  obtain ⟨hne, hss⟩ := pyInt_shape s n h
  obtain ⟨a, b, hdec, ha, hb⟩ := stripList_decomp s.data
  have hnocr : '\r' ∉ stripList s.data :=
    fun hm => absurd (hss '\r' hm) (by decide)
  have hy : ∀ d, (stripList s.data ++ b).head? = some d → d ≠ '\n' := by
    intro d hd heq
    obtain ⟨c0, t, hct⟩ := List.exists_cons_of_ne_nil hne
    rw [hct, List.cons_append, List.head?_cons, Option.some.injEq] at hd
    have := hss c0 (by rw [hct]; exact List.mem_cons_self c0 t)
    rw [hd, heq] at this
    exact absurd this (by decide)
  have hu : univNL s.data = univNL a ++ (stripList s.data ++ univNL b) := by
    conv_lhs => rw [hdec]
    rw [univNL_append a _ hy, univNL_append_no_cr _ b hnocr]
  have hstrip : stripList (univNL s.data) = stripList s.data := by
    rw [hu]
    exact stripList_sandwich (univNL a) _ (univNL b) (univNL_ws a ha) (univNL_ws b hb)
      hne (fun d hd => hss d (mem_of_head_eq hd))
      (fun d hd => hss d (mem_of_getLast_eq hd))
  simp only [pyInt] at h ⊢
  rw [hstrip]
  exact h

example : comps head_path = ["decisions", "HEAD"] := by decide

example : read_head initStore = .ok 0 := by decide

/-! ### Lookup lemmas for the state helpers -/

theorem lookupFs_eraseKey (fs : Fs) (k k' : FPath) :
    lookupFs (eraseKey fs k) k' = if k' = k then none else lookupFs fs k' := by
  induction fs with
  | nil => simp [eraseKey, lookupFs]
  | cons kv rest ih =>
    rw [eraseKey]
    by_cases h : kv.1 = k
    · subst h
      rw [if_pos rfl, ih]
      by_cases h2 : k' = kv.1
      · rw [if_pos h2, if_pos h2]
      · rw [if_neg h2, if_neg h2, lookupFs, if_neg (fun hc => h2 hc.symm)]
    · rw [if_neg h, lookupFs, ih]
      by_cases h2 : kv.1 = k'
      · subst h2
        rw [if_pos rfl, if_neg h, lookupFs, if_pos rfl]
      · rw [if_neg h2, lookupFs, if_neg h2]

theorem lookupFs_setFs (fs : Fs) (k : FPath) (e : Entry) (k' : FPath) :
    lookupFs (setFs fs k e) k' = if k' = k then some e else lookupFs fs k' := by
  rw [setFs, lookupFs, lookupFs_eraseKey]
  by_cases h : k' = k
  · rw [if_pos h.symm, if_pos h]
  · rw [if_neg (fun hc => h hc.symm), if_neg h, if_neg h]

theorem lookupFs_append (l₁ l₂ : Fs) (k : FPath) :
    lookupFs (l₁ ++ l₂) k =
      match lookupFs l₁ k with
      | some e => some e
      | none => lookupFs l₂ k := by
  induction l₁ with
  | nil => simp [lookupFs]
  | cons kv rest ih =>
    rw [List.cons_append, lookupFs, lookupFs]
    by_cases h : kv.1 = k
    · rw [if_pos h, if_pos h]
    · rw [if_neg h, if_neg h, ih]

theorem lookupFs_rebaseAll_under (src dst : FPath) (fs : Fs) (q : FPath) :
    lookupFs (rebaseAll src dst fs) (dst ++ q) = lookupFs fs (src ++ q) := by
  induction fs with
  | nil => simp [rebaseAll, lookupFs]
  | cons kv rest ih =>
    rw [rebaseAll]
    by_cases h : src <+: kv.1
    · obtain ⟨t, ht⟩ := h
      rw [if_pos ⟨t, ht⟩, lookupFs, lookupFs]
      have hdrop : rebase src dst kv.1 = dst ++ t := by
        rw [rebase, ← ht, List.drop_left]
      rw [hdrop]
      by_cases h2 : t = q
      · subst h2
        rw [if_pos rfl, if_pos ht.symm]
      · have hn1 : ¬ (dst ++ t = dst ++ q) := fun hc => h2 (List.append_cancel_left hc)
        have hn2 : ¬ (kv.1 = src ++ q) := by
          rw [← ht]; exact fun hc => h2 (List.append_cancel_left hc)
        rw [if_neg hn1, if_neg hn2, ih]
    · have hn : ¬ (kv.1 = src ++ q) := fun hc => h (by rw [hc]; exact ⟨q, rfl⟩)
      rw [if_neg h, ih, lookupFs, if_neg hn]

theorem lookupFs_rebaseAll_not_under (src dst : FPath) (fs : Fs) (k : FPath)
    (h : ¬ dst <+: k) : lookupFs (rebaseAll src dst fs) k = none := by
  induction fs with
  | nil => simp [rebaseAll, lookupFs]
  | cons kv rest ih =>
    rw [rebaseAll]
    by_cases h1 : src <+: kv.1
    · have hp : dst <+: rebase src dst kv.1 := ⟨kv.1.drop src.length, rfl⟩
      have hKne : ¬ (rebase src dst kv.1 = k) := by
        intro hc
        apply h
        rw [← hc]
        exact hp
      rw [if_pos h1, lookupFs, if_neg hKne, ih]
    · rw [if_neg h1, ih]

theorem mem_listdir (fs : Fs) (k : FPath) (name : String) :
    name ∈ listdir fs k ↔ ∃ e, (k ++ [name], e) ∈ fs := by
  induction fs with
  | nil => simp [listdir]
  | cons kv rest ih =>
    rw [listdir]
    by_cases h : k <+: kv.1 ∧ kv.1.length = k.length + 1
    · obtain ⟨⟨t, ht⟩, hlen⟩ := h
      have hlt : t.length = 1 := by
        rw [← ht, List.length_append] at hlen; omega
      obtain ⟨x, hx⟩ : ∃ x, t = [x] := by
        cases t with
        | nil => simp at hlt
        | cons a tl =>
          cases tl with
          | nil => exact ⟨a, rfl⟩
          | cons b tl2 => simp at hlt
      subst hx
      rw [if_pos ⟨⟨[x], ht⟩, hlen⟩]
      have hgl : kv.1.getLastD "" = x := by rw [← ht]; simp
      rw [hgl]
      constructor
      · intro hm
        rcases List.mem_cons.mp hm with h1 | h1
        · refine ⟨kv.2, ?_⟩
          have hk : (k ++ [name], kv.2) = kv := by
            rw [h1, ht]
          rw [hk]
          exact List.mem_cons_self _ _
        · obtain ⟨e, he⟩ := ih.mp h1
          exact ⟨e, List.mem_cons_of_mem _ he⟩
      · intro he
        obtain ⟨e, he⟩ := he
        rcases List.mem_cons.mp he with h1 | h1
        · have h2 : k ++ [name] = kv.1 := congrArg Prod.fst h1
          rw [← ht] at h2
          have h3 := List.append_cancel_left h2
          simp only [List.cons.injEq, and_true] at h3
          rw [h3]
          exact List.mem_cons_self _ _
        · exact List.mem_cons_of_mem _ (ih.mpr ⟨e, h1⟩)
    · rw [if_neg h, ih]
      constructor
      · intro he
        obtain ⟨e, he⟩ := he
        exact ⟨e, List.mem_cons_of_mem _ he⟩
      · intro he
        obtain ⟨e, he⟩ := he
        rcases List.mem_cons.mp he with h1 | h1
        · exfalso
          have h2 : k ++ [name] = kv.1 := congrArg Prod.fst h1
          refine h ⟨⟨[name], h2⟩, ?_⟩
          rw [← h2]
          simp
        · exact ⟨e, h1⟩

theorem lookup_isSome_of_mem (fs : Fs) (k : FPath) (e : Entry) (hm : (k, e) ∈ fs) :
    (lookupFs fs k).isSome = true := by
  induction fs with
  | nil => simp at hm
  | cons kv rest ih =>
    rw [lookupFs]
    rcases List.mem_cons.mp hm with h1 | h1
    · rw [if_pos (congrArg Prod.fst h1.symm)]
      rfl
    · by_cases h2 : kv.1 = k
      · rw [if_pos h2]; rfl
      · rw [if_neg h2]; exact ih h1

theorem mem_of_lookup (fs : Fs) (k : FPath) (e : Entry)
    (h : lookupFs fs k = some e) : (k, e) ∈ fs := by
  induction fs with
  | nil => simp [lookupFs] at h
  | cons kv rest ih =>
    rw [lookupFs] at h
    by_cases h2 : kv.1 = k
    · rw [if_pos h2] at h
      cases h
      have hkv : (k, kv.2) = kv := by rw [← h2]
      rw [hkv]
      exact List.mem_cons_self _ _
    · rw [if_neg h2] at h
      exact List.mem_cons_of_mem _ (ih h)

theorem key_mem_of_lookup (fs : Fs) (k : FPath) (e : Entry)
    (h : lookupFs fs k = some e) : k ∈ fs.map Prod.fst := by
  have := mem_of_lookup fs k e h
  exact List.mem_map.mpr ⟨(k, e), this, rfl⟩

theorem listdir_nodup (fs : Fs) (k : FPath) (h : (fs.map Prod.fst).Nodup) :
    (listdir fs k).Nodup := by
  induction fs with
  | nil => simp [listdir]
  | cons kv rest ih =>
    rw [List.map_cons, List.nodup_cons] at h
    rw [listdir]
    by_cases hc : k <+: kv.1 ∧ kv.1.length = k.length + 1
    · rw [if_pos hc]
      refine List.nodup_cons.mpr ⟨?_, ih h.2⟩
      intro hmem
      obtain ⟨⟨t, ht⟩, hlen⟩ := hc
      have hlt : t.length = 1 := by
        rw [← ht, List.length_append] at hlen; omega
      obtain ⟨x, hx⟩ : ∃ x, t = [x] := by
        cases t with
        | nil => simp at hlt
        | cons a tl =>
          cases tl with
          | nil => exact ⟨a, rfl⟩
          | cons b tl2 => simp at hlt
      subst hx
      have hgl : kv.1.getLastD "" = x := by rw [← ht]; simp
      rw [hgl] at hmem
      obtain ⟨e, he⟩ := (mem_listdir rest k x).mp hmem
      have : kv.1 ∈ rest.map Prod.fst := by
        rw [← ht]
        exact List.mem_map.mpr ⟨(k ++ [x], e), he, rfl⟩
      exact h.1 this
    · rw [if_neg hc]
      exact ih h.2

theorem keys_eraseKey_sublist (fs : Fs) (k : FPath) :
    ((eraseKey fs k).map Prod.fst).Sublist (fs.map Prod.fst) := by
  induction fs with
  | nil => simp [eraseKey]
  | cons kv rest ih =>
    rw [eraseKey]
    by_cases h : kv.1 = k
    · rw [if_pos h, List.map_cons]
      exact ih.cons _
    · rw [if_neg h, List.map_cons, List.map_cons]
      exact ih.cons₂ _

theorem key_not_mem_eraseKey (fs : Fs) (k : FPath) :
    k ∉ (eraseKey fs k).map Prod.fst := by
  induction fs with
  | nil => simp [eraseKey]
  | cons kv rest ih =>
    rw [eraseKey]
    by_cases h : kv.1 = k
    · rw [if_pos h]; exact ih
    · rw [if_neg h, List.map_cons]
      intro hc
      rcases List.mem_cons.mp hc with h1 | h1
      · exact h h1.symm
      · exact ih h1

theorem nodup_setFs (fs : Fs) (k : FPath) (e : Entry)
    (h : (fs.map Prod.fst).Nodup) : ((setFs fs k e).map Prod.fst).Nodup := by
  rw [setFs, List.map_cons]
  exact List.nodup_cons.mpr ⟨key_not_mem_eraseKey fs k, (keys_eraseKey_sublist fs k).nodup h⟩

/-! ### Inversion and construction lemmas for the monadic operations -/

theorem except_bind_ok {ε α β : Type} (m : Except ε α) (f : α → Except ε β) (r : β)
    (h : (m >>= f) = .ok r) : ∃ a, m = .ok a ∧ f a = .ok r := by
  cases m with
  | ok a => exact ⟨a, rfl, h⟩
  | error e => exact Except.noConfusion h

theorem makedirsGo_lookup (existOk : Bool) (segs : List FPath) :
    ∀ (fs fs' : Fs) (k : FPath),
      makedirsGo existOk fs segs = .ok fs' → k ∉ segs →
      lookupFs fs' k = lookupFs fs k := by
  induction segs with
  | nil =>
    intro fs fs' k h _
    rw [makedirsGo] at h
    cases h
    rfl
  | cons seg rest ih =>
    intro fs fs' k h hk
    have hne : k ≠ seg := fun hc => hk (by rw [hc]; exact List.mem_cons_self _ _)
    have hnr : k ∉ rest := fun hc => hk (List.mem_cons_of_mem _ hc)
    cases rest with
    | nil =>
      cases hl : lookupFs fs seg with
      | none =>
        simp only [makedirsGo, hl] at h
        cases h
        rw [lookupFs_setFs, if_neg hne]
      | some e =>
        cases e with
        | dir =>
          simp only [makedirsGo, hl] at h
          split at h
          · cases h; rfl
          · exact Except.noConfusion h
        | file c =>
          simp only [makedirsGo, hl] at h
          exact Except.noConfusion h
    | cons r rs =>
      cases hl : lookupFs fs seg with
      | none =>
        simp only [makedirsGo, hl] at h
        rw [ih _ _ _ h hnr, lookupFs_setFs, if_neg hne]
      | some e =>
        cases e with
        | dir =>
          simp only [makedirsGo, hl] at h
          exact ih _ _ _ h hnr
        | file c =>
          simp only [makedirsGo, hl] at h
          exact Except.noConfusion h

theorem makedirsGo_preserves (existOk : Bool) (segs : List FPath) :
    ∀ (fs fs' : Fs) (k : FPath) (e : Entry),
      makedirsGo existOk fs segs = .ok fs' → lookupFs fs k = some e →
      lookupFs fs' k = some e := by
  induction segs with
  | nil =>
    intro fs fs' k e h hk
    rw [makedirsGo] at h
    cases h
    exact hk
  | cons seg rest ih =>
    intro fs fs' k e h hk
    cases rest with
    | nil =>
      cases hl : lookupFs fs seg with
      | none =>
        simp only [makedirsGo, hl] at h
        cases h
        rw [lookupFs_setFs, if_neg (fun hc => by rw [hc, hl] at hk; exact Option.noConfusion hk)]
        exact hk
      | some e2 =>
        cases e2 with
        | dir =>
          simp only [makedirsGo, hl] at h
          split at h
          · cases h; exact hk
          · exact Except.noConfusion h
        | file c =>
          simp only [makedirsGo, hl] at h
          exact Except.noConfusion h
    | cons r rs =>
      cases hl : lookupFs fs seg with
      | none =>
        simp only [makedirsGo, hl] at h
        refine ih _ _ _ _ h ?_
        rw [lookupFs_setFs, if_neg (fun hc => by rw [hc, hl] at hk; exact Option.noConfusion hk)]
        exact hk
      | some e2 =>
        cases e2 with
        | dir =>
          simp only [makedirsGo, hl] at h
          exact ih _ _ _ _ h hk
        | file c =>
          simp only [makedirsGo, hl] at h
          exact Except.noConfusion h

theorem makedirs_lookup (fs fs' : Fs) (k : FPath) (existOk : Bool) (key : FPath)
    (h : makedirs fs k existOk = .ok fs') (hk : key ∉ initSegs k) :
    lookupFs fs' key = lookupFs fs key := by
  rw [makedirs] at h
  split at h
  · exact Except.noConfusion h
  · exact makedirsGo_lookup existOk _ fs fs' key h hk

theorem makedirs_preserves (fs fs' : Fs) (k : FPath) (existOk : Bool)
    (key : FPath) (e : Entry)
    (h : makedirs fs k existOk = .ok fs') (hk : lookupFs fs key = some e) :
    lookupFs fs' key = some e := by
  rw [makedirs] at h
  split at h
  · exact Except.noConfusion h
  · exact makedirsGo_preserves existOk _ fs fs' key e h hk

theorem openWrite_ok (fs fs' : Fs) (k : FPath) (c : String)
    (h : openWrite fs k c = .ok fs') : fs' = setFs fs k (.file c) := by
  rw [openWrite] at h
  split at h
  · exact Except.noConfusion h
  · split at h
    · exact Except.noConfusion h
    · cases h; rfl
    · split at h
      · cases h; rfl
      · split at h
        · cases h; rfl
        · exact Except.noConfusion h
        · exact Except.noConfusion h

theorem openWrite_file (fs : Fs) (k : FPath) (c old : String)
    (hk : k ≠ []) (h : lookupFs fs k = some (.file old)) :
    openWrite fs k c = .ok (setFs fs k (.file c)) := by
  rw [openWrite, if_neg hk, h]

theorem fs_write_ok (fs fs' : Fs) (p c : String) (st : Nat)
    (h : fs_write fs p c = .ok (fs', st)) :
    st = 201 ∧
    ∃ fs₁, makedirs fs (comps (safe_path p)).dropLast true = .ok fs₁ ∧
      fs' = setFs fs₁ (comps (safe_path p)) (.file c) := by
  simp only [fs_write] at h
  obtain ⟨fs₁, h1, h2⟩ := except_bind_ok _ _ _ h
  obtain ⟨fs₂, h3, h4⟩ := except_bind_ok _ _ _ h2
  simp only [Except.ok.injEq, Prod.mk.injEq] at h4
  obtain ⟨hf, hs⟩ := h4
  subst hf
  exact ⟨hs.symm, fs₁, h1, (openWrite_ok _ _ _ _ h3).symm ▸ rfl⟩

/-! ### The claim theorems -/

/-- C1, evidence for the code bug: `safe_path` only normalizes the joined
path and performs no containment check, despite the source's comment that
it prevents path traversal: the caller-supplied relative path `"../evil"`
resolves to `"evil"`, which is outside the storage root `decisions`, and
no error is raised. -/
theorem safe_path_escape_eval :
    safe_path "../evil" = "evil" ∧ withinRoot (safe_path "../evil") = false := by
  decide

/-- C5, counterexample to the unamended claim: the source writes and reads
files in text mode, and text-mode reading applies universal-newline
translation, so content containing carriage returns does not round-trip
verbatim: writing `"x\ry\r\nz"` stores it, but reading returns
`"x\ny\nz"`. -/
theorem write_read_translates_cr :
    fs_write initStore "c.txt" "x\ry\r\nz" = .ok (wStoreCR, 201) ∧
    fs_read wStoreCR "c.txt" = .ok ("x\ny\nz", 200) ∧
    ("x\ny\nz" : String) ≠ "x\ry\r\nz" := by decide

/-- C5 (amended): whenever `fs_write fs p c` succeeds, reading `p` in the
resulting state returns `c` with universal-newline translation applied —
each CRLF pair and each remaining lone CR becomes LF — and hence returns
exactly `c` whenever `c` contains no carriage return. -/
theorem write_read_roundtrip (fs fs' : Fs) (p c : String)
    (h : fs_write fs p c = .ok (fs', 201)) :
    fs_read fs' p = .ok (String.mk (univNL c.data), 200) ∧
    ('\r' ∉ c.data → fs_read fs' p = .ok (c, 200)) := by
  obtain ⟨-, fs₁, hmk, hset⟩ := fs_write_ok fs fs' p c 201 h
  subst hset
  have hl : lookupFs (setFs fs₁ (comps (safe_path p)) (.file c))
      (comps (safe_path p)) = some (.file c) := by
    rw [lookupFs_setFs, if_pos rfl]
  have main : fs_read (setFs fs₁ (comps (safe_path p)) (.file c)) p =
      .ok (String.mk (univNL c.data), 200) := by
    simp only [fs_read, existsFs, hl, Option.isSome_some, if_true, openRead]
    rfl
  refine ⟨main, fun hcr => ?_⟩
  rw [main, univNL_no_cr c.data hcr]

/-- Witness for C5: the round trip at a concrete store, path and
carriage-return-free content. -/
theorem write_read_roundtrip_witness :
    fs_read wStore1 "a/b.txt" = .ok ("hello", 200) :=
  (write_read_roundtrip initStore wStore1 "a/b.txt" "hello" (by decide)).2 (by decide)

/-- C9: file operations resolve caller paths directly against the storage
root, so the caller path "HEAD" reaches the store's persisted HEAD
metadata file: a successful `fs_write` of "HEAD" with content `c` makes a
subsequent `current_rev` return the integer parsed from `c`. -/
theorem write_HEAD_overwrites_head (fs fs' : Fs) (c : String) (n : Int)
    (hp : pyInt c = some n) (h : fs_write fs "HEAD" c = .ok (fs', 201)) :
    comps (safe_path "HEAD") = comps head_path ∧ current_rev fs' = .ok n := by
  refine ⟨by decide, ?_⟩
  obtain ⟨-, fs₁, hmk, hset⟩ := fs_write_ok fs fs' "HEAD" c 201 h
  subst hset
  have hk : comps head_path = comps (safe_path "HEAD") := by decide
  have hl : lookupFs (setFs fs₁ (comps (safe_path "HEAD")) (.file c))
      (comps head_path) = some (.file c) := by
    rw [hk, lookupFs_setFs, if_pos rfl]
  rw [current_rev, read_head]
  simp only [openRead, hl]
  show (match pyInt (String.mk (univNL c.data)) with
    | some n => (Except.ok n : Except PyErr Int)
    | none => Except.error PyErr.valueError) = Except.ok n
  rw [pyInt_univNL c n hp]

/-- Witness for C9: overwriting HEAD through the file API at a concrete
store makes the revision counter report the written number. -/
theorem write_HEAD_overwrites_head_witness :
    pyInt "42" = some 42 ∧
    (comps (safe_path "HEAD") = comps head_path ∧
      current_rev [(["decisions", "HEAD"], Entry.file "42"), (["decisions"], Entry.dir),
        (["decisions", "0"], Entry.dir)] = .ok 42) :=
  ⟨by decide,
   write_HEAD_overwrites_head initStore
     [(["decisions", "HEAD"], Entry.file "42"), (["decisions"], Entry.dir),
      (["decisions", "0"], Entry.dir)] "42" 42 (by decide) (by decide)⟩

/-- C10: the save endpoint and the write endpoint are extensionally equal,
and on success both leave the resolved target bound to the written content
and return status 201. -/
theorem save_write_equivalent (fs : Fs) (p c : String) :
    fs_save fs p c = fs_write fs p c ∧
    ∀ fs' st, fs_save fs p c = .ok (fs', st) →
      st = 201 ∧ lookupFs fs' (comps (safe_path p)) = some (.file c) := by
  refine ⟨rfl, ?_⟩
  intro fs' st h
  have h' : fs_write fs p c = .ok (fs', st) := h
  obtain ⟨hst, fs₁, hmk, hset⟩ := fs_write_ok fs fs' p c st h'
  subst hset
  exact ⟨hst, by rw [lookupFs_setFs, if_pos rfl]⟩

/-- Witness for C10 at a concrete store, path and content. -/
theorem save_write_equivalent_witness :
    fs_save initStore "n.txt" "x" = fs_write initStore "n.txt" "x" ∧
    (201 = 201 ∧ lookupFs wStore2 (comps (safe_path "n.txt")) = some (.file "x")) :=
  ⟨(save_write_equivalent initStore "n.txt" "x").1,
   (save_write_equivalent initStore "n.txt" "x").2 wStore2 201 (by decide)⟩

/-- Read the revision counter when HEAD holds the canonical text of `h`. -/
theorem current_rev_of_head (fs : Fs) (h : Nat)
    (hh : lookupFs fs (comps head_path) = some (.file (Nat.repr h))) :
    current_rev fs = .ok ((h : Int)) := by
  rw [current_rev, read_head]
  simp only [openRead, hh]
  have hcr : '\r' ∉ (Nat.repr h).data := by
    rw [repr_eq_natDigits]
    intro hm
    exact absurd (natDigits_not_ws h '\r' hm) (by decide)
  rw [univNL_no_cr _ hcr]
  show (match pyInt (Nat.repr h) with
    | some n => (Except.ok n : Except PyErr Int)
    | none => Except.error PyErr.valueError) = Except.ok ((h : Int))
  rw [pyInt_repr]

/-- C8: the revision listing returns the persisted HEAD as `latest`
together with exactly the integers `0 .. HEAD` in order, a list of length
`HEAD + 1`. -/
theorem rev_list_spec (fs : Fs) (h : Nat)
    (hh : lookupFs fs (comps head_path) = some (.file (Nat.repr h))) :
    rev_list fs = .ok ((h : Int), (List.range (h + 1)).map (fun i : Nat => (i : Int))) ∧
    ((List.range (h + 1)).map (fun i : Nat => (i : Int))).length = h + 1 := by
  have hr : pyRange ((h : Int) + 1) = (List.range (h + 1)).map (fun i : Nat => (i : Int)) := by
    rw [pyRange]
    have hc : ((h : Int) + 1).toNat = h + 1 := by omega
    rw [hc]
  constructor
  · rw [rev_list, current_rev_of_head fs h hh]
    show Except.ok ((h : Int), pyRange ((h : Int) + 1)) = _
    rw [hr]
  · rw [List.length_map, List.length_range]

/-- Witness for C8 at the fresh store. -/
theorem rev_list_spec_witness :
    rev_list initStore = .ok (0, [0]) ∧ ([(0 : Int)]).length = 0 + 1 := by
  have h1 := (rev_list_spec initStore 0 (by decide)).1
  constructor
  · simpa using h1
  · rfl

theorem ok_bind {ε α β : Type} (a : α) (f : α → Except ε β) :
    (Except.ok a >>= f) = f a := rfl

theorem splitSlash_ne_nil (cs : List Char) : splitSlash cs ≠ [] := by
  cases cs with
  | nil => simp [splitSlash]
  | cons c rest =>
    rw [splitSlash]
    cases h : splitSlash rest with
    | nil => simp
    | cons g gs => by_cases hc : c = '/' <;> simp [hc]

theorem splitSlash_append (l rest : List Char) (h : '/' ∉ l) :
    splitSlash (l ++ '/' :: rest) = l :: splitSlash rest := by
  induction l with
  | nil =>
    rw [List.nil_append]
    cases hs : splitSlash rest with
    | nil => exact absurd hs (splitSlash_ne_nil rest)
    | cons g gs =>
      rw [splitSlash, hs]
      simp
  | cons c l ih =>
    have hc : ¬ c = '/' := fun hcc => h (by rw [hcc]; exact List.mem_cons_self _ _)
    have hl : '/' ∉ l := fun hm => h (List.mem_cons_of_mem _ hm)
    rw [List.cons_append, splitSlash, ih hl]
    simp [hc]

theorem splitSlash_no (l : List Char) (h : '/' ∉ l) : splitSlash l = [l] := by
  induction l with
  | nil => rfl
  | cons c l ih =>
    have hc : ¬ c = '/' := fun hcc => h (by rw [hcc]; exact List.mem_cons_self _ _)
    have hl : '/' ∉ l := fun hm => h (List.mem_cons_of_mem _ hm)
    rw [splitSlash, ih hl]
    simp [hc]

/-- Joining the storage root with a plain name (no slash, not a dot)
resolves to the two-component key under `decisions`. -/
theorem comps_join_root (s : String) (hne : s.data ≠ []) (hns : '/' ∉ s.data)
    (hnd : s ≠ ".") : comps (pyJoin STORAGE_ROOT s) = ["decisions", s] := by
  have hss : strStarts s "/" = false := by
    rw [strStarts]
    cases hd : s.data with
    | nil => exact absurd hd hne
    | cons c cs =>
      have hc : ¬ c = '/' := fun hcc => hns (by rw [hd, hcc]; exact List.mem_cons_self _ _)
      show listStarts (c :: cs) ('/' :: []) = false
      rw [listStarts]
      simp [hc]
  have hj : pyJoin STORAGE_ROOT s = "./decisions/" ++ s := by
    rw [pyJoin, if_neg (by rw [hss]; exact Bool.false_ne_true), if_neg (by decide)]
    show "./decisions" ++ "/" ++ s = "./decisions/" ++ s
    have : ("./decisions" ++ "/" : String) = "./decisions/" := by decide
    rw [this]
  rw [hj, comps, splitOnSlash]
  have hdata : ("./decisions/" ++ s).data = ['.'] ++ '/' :: ("decisions".data ++ '/' :: s.data) := rfl
  rw [hdata, splitSlash_append ['.'] _ (by decide),
    splitSlash_append "decisions".data _ (by decide), splitSlash_no s.data hns]
  have hs1 : String.mk s.data = s := rfl
  have hsne : s ≠ "" := by
    intro hc
    rw [hc] at hne
    exact hne rfl
  simp only [List.map_cons, List.map_nil, hs1]
  show List.filter _ [".", "decisions", s] = _
  rw [List.filter_cons, List.filter_cons, List.filter_cons, List.filter_nil]
  rw [if_neg (by decide), if_pos (by decide), if_pos (decide_eq_true ⟨hsne, hnd⟩)]

theorem repr_data_eq (n : Nat) : (Nat.repr n).data = natDigits n := by
  rw [repr_eq_natDigits]

theorem repr_data_ne_nil (n : Nat) : (Nat.repr n).data ≠ [] := by
  rw [repr_data_eq]
  exact natDigits_ne_nil n

theorem repr_no_slash (n : Nat) : '/' ∉ (Nat.repr n).data := by
  rw [repr_data_eq]
  intro hm
  have := natDigits_all_digit n '/' hm
  exact absurd this (by decide)

theorem repr_ne_dot (n : Nat) : Nat.repr n ≠ "." := by
  intro h
  have h1 := pyInt_repr n
  rw [h] at h1
  have h2 : pyInt "." = none := by decide
  rw [h2] at h1
  exact Option.noConfusion h1

theorem toString_int_hsucc (h : Nat) : toString ((h : Int) + 1) = Nat.repr (h + 1) := by
  have hc : ((h : Int) + 1) = ((h + 1 : Nat) : Int) := by push_cast; ring
  rw [hc]
  rfl

theorem headKey_eq : comps head_path = ["decisions", "HEAD"] := by decide

theorem revKey_ne_headKey (n : Nat) : revKey n ≠ comps head_path := by
  rw [headKey_eq, revKey]
  intro h
  simp only [List.cons.injEq, and_true] at h
  exact repr_ne_HEAD n h.2

theorem revKey_inj (m n : Nat) (h : revKey m = revKey n) : m = n := by
  rw [revKey, revKey] at h
  simp only [List.cons.injEq, and_true] at h
  exact repr_injective m n h.2

theorem revKey_append_inj (m n : Nat) (a b : FPath)
    (h : revKey m ++ a = revKey n ++ b) : m = n ∧ a = b := by
  rw [revKey, revKey] at h
  simp only [List.cons_append, List.cons.injEq, true_and] at h
  exact ⟨repr_injective m n h.1, h.2⟩

theorem revKeyApp_ne_headKey (n : Nat) (rest : FPath) :
    revKey n ++ rest ≠ comps head_path := by
  rw [headKey_eq, revKey]
  intro h
  simp only [List.cons_append, List.cons.injEq] at h
  exact repr_ne_HEAD n (by
    have h2 := h.2
    cases rest with
    | nil => simpa using h2.1
    | cons x xs => simp at h2)

theorem initSegs_pair (a b : String) : initSegs [a, b] = [[a], [a, b]] := rfl

theorem makedirs_pair_create (fs : Fs) (a b : String) (existOk : Bool)
    (hroot : lookupFs fs [a] = some .dir) (htgt : lookupFs fs [a, b] = none) :
    makedirs fs [a, b] existOk = .ok (setFs fs [a, b] .dir) := by
  rw [makedirs, if_neg (by simp), initSegs_pair]
  simp only [makedirsGo, hroot, htgt]

theorem makedirs_pair_exist (fs : Fs) (a b : String)
    (hroot : lookupFs fs [a] = some .dir) (htgt : lookupFs fs [a, b] = some .dir) :
    makedirs fs [a, b] true = .ok fs := by
  rw [makedirs, if_neg (by simp), initSegs_pair]
  simp only [makedirsGo, hroot, htgt, if_true]

theorem lookupFs_bumpFs (fs : Fs) (h : Nat) (k : FPath) :
    lookupFs (bumpFs fs h) k =
      if k = comps head_path then some (.file (Nat.repr (h + 1)))
      else if k = revKey (h + 1) then some .dir
      else lookupFs fs k := by
  rw [bumpFs, lookupFs_setFs, lookupFs_setFs]

theorem keys_setFs_sub (fs : Fs) (k : FPath) (e : Entry) (k' : FPath)
    (h : k' ∈ (setFs fs k e).map Prod.fst) : k' = k ∨ k' ∈ fs.map Prod.fst := by
  rw [setFs, List.map_cons] at h
  rcases List.mem_cons.mp h with h1 | h1
  · exact Or.inl h1
  · exact Or.inr ((keys_eraseKey_sublist fs k).mem h1)

/-- A successful allocation on a well-formed store: read, create the next
revision directory, persist HEAD, return `h + 1`. -/
theorem bump_rev_eq (fs : Fs) (h : Nat) (hw : WfStore fs h) :
    bump_rev fs = .ok (bumpFs fs h, ((h + 1 : Nat) : Int)) := by
  have hkey : comps (pyJoin STORAGE_ROOT (toString ((h : Int) + 1))) = revKey (h + 1) := by
    rw [toString_int_hsucc, revKey]
    exact comps_join_root (Nat.repr (h + 1)) (repr_data_ne_nil _) (repr_no_slash _)
      (repr_ne_dot _)
  have htgt : lookupFs fs (revKey (h + 1)) = none := by
    have ha := hw.aboveAbsent (h + 1) (by omega) []
    rwa [List.append_nil] at ha
  have hmk : makedirs fs (comps (pyJoin STORAGE_ROOT (toString ((h : Int) + 1)))) false =
      .ok (setFs fs (revKey (h + 1)) .dir) := by
    rw [hkey]
    rw [show revKey (h + 1) = ["decisions", Nat.repr (h + 1)] from rfl] at htgt ⊢
    exact makedirs_pair_create fs "decisions" (Nat.repr (h + 1)) false hw.rootDir htgt
  have hwh : write_head (setFs fs (revKey (h + 1)) .dir) ((h : Int) + 1) = .ok (bumpFs fs h) := by
    rw [write_head, toString_int_hsucc]
    have hlk : lookupFs (setFs fs (revKey (h + 1)) .dir) (comps head_path) =
        some (.file (Nat.repr h)) := by
      rw [lookupFs_setFs, if_neg (fun hc => revKey_ne_headKey (h + 1) hc.symm)]
      exact hw.headFile
    rw [openWrite_file _ _ _ (Nat.repr h) (by rw [headKey_eq]; simp) hlk]
    rfl
  have hcast : ((h : Int) + 1) = ((h + 1 : Nat) : Int) := by push_cast; ring
  rw [hcast] at hmk hwh
  simp only [bump_rev, current_rev_of_head fs h hw.headFile, ok_bind, hcast, hmk, hwh]

/-- Allocation preserves well-formedness, moving the head to `h + 1`. -/
theorem bumpFs_wf (fs : Fs) (h : Nat) (hw : WfStore fs h) : WfStore (bumpFs fs h) (h + 1) := by
  have hrh : revKey (h + 1) ≠ comps head_path := revKey_ne_headKey (h + 1)
  constructor
  · rw [bumpFs]
    exact nodup_setFs _ _ _ (nodup_setFs _ _ _ hw.nodupKeys)
  · intro k hk i hi1 hi2
    have hk2 := keys_setFs_sub _ _ _ k (by rw [bumpFs] at hk; exact hk)
    have hroot : lookupFs (bumpFs fs h) ["decisions"] = some Entry.dir := by
      rw [lookupFs_bumpFs, if_neg (by decide), if_neg (by rw [revKey]; simp)]
      exact hw.rootDir
    rcases hk2 with hk2 | hk2
    · subst hk2
      have hlen : (comps head_path).length = 2 := by decide
      have hi : i = 1 := by omega
      subst hi
      have ht1 : (comps head_path).take 1 = ["decisions"] := by decide
      rw [ht1]
      exact hroot
    · have hk3 := keys_setFs_sub _ _ _ k hk2
      rcases hk3 with hk3 | hk3
      · subst hk3
        have hlen : (revKey (h + 1)).length = 2 := by rw [revKey]; rfl
        have hi : i = 1 := by omega
        subst hi
        have ht1 : (revKey (h + 1)).take 1 = ["decisions"] := by rw [revKey]; rfl
        rw [ht1]
        exact hroot
      · have hfs := hw.pfxClosed k hk3 i hi1 hi2
        rw [lookupFs_bumpFs]
        by_cases hh1 : k.take i = comps head_path
        · exfalso
          rw [hh1, hw.headFile] at hfs
          exact Entry.noConfusion (Option.some.inj hfs)
        · by_cases hh2 : k.take i = revKey (h + 1)
          · rw [if_neg hh1, if_pos hh2]
          · rw [if_neg hh1, if_neg hh2]
            exact hfs
  · rw [lookupFs_bumpFs, if_neg (by decide), if_neg (by rw [revKey]; simp)]
    exact hw.rootDir
  · rw [lookupFs_bumpFs, if_pos rfl]
  · intro n hn
    rw [lookupFs_bumpFs, if_neg (revKey_ne_headKey n)]
    by_cases hn2 : n = h + 1
    · rw [if_pos (by rw [hn2])]
    · rw [if_neg (fun hc => hn2 (revKey_inj n (h + 1) hc))]
      exact hw.revDirs n (by omega)
  · intro n hn rest
    rw [lookupFs_bumpFs, if_neg (revKeyApp_ne_headKey n rest)]
    rw [if_neg (fun hc => by
      have h2 := revKey_append_inj n (h + 1) rest [] (by rw [List.append_nil]; exact hc)
      omega)]
    exact hw.aboveAbsent n (by omega) rest

/-- C2: over any sequence of `k` allocation calls on a well-formed store
at head `h`, every call succeeds, the returned numbers are exactly
`h+1, h+2, ..., h+k` (strictly increasing, no duplicates, no gaps), and
the final store is well-formed at head `h + k` — its revision directories
are exactly the contiguous range `0 .. HEAD` and HEAD is persisted. -/
theorem bump_rev_allocation (fs : Fs) (h : Nat) (hw : WfStore fs h) (k : Nat) :
    allocCalls fs k =
      .ok (bumpIterFs fs h k, (List.range k).map (fun i : Nat => ((h + 1 + i : Nat) : Int))) ∧
    WfStore (bumpIterFs fs h k) (h + k) := by
  induction k generalizing fs h with
  | zero =>
    refine ⟨by rw [allocCalls, bumpIterFs]; rfl, ?_⟩
    rw [bumpIterFs]
    simpa using hw
  | succ k ih =>
    obtain ⟨h1, h2⟩ := ih (bumpFs fs h) (h + 1) (bumpFs_wf fs h hw)
    have hit : bumpIterFs fs h (k + 1) = bumpIterFs (bumpFs fs h) (h + 1) k := rfl
    have hlist : ((h + 1 : Nat) : Int) ::
        (List.range k).map (fun i : Nat => ((h + 1 + 1 + i : Nat) : Int))
        = (List.range (k + 1)).map (fun i : Nat => ((h + 1 + i : Nat) : Int)) := by
      rw [List.range_succ_eq_map, List.map_cons, List.map_map]
      congr 1
      apply List.map_congr_left
      intro i _
      simp only [Function.comp]
      congr 1
      omega
    constructor
    · simp only [allocCalls, bump_rev_eq fs h hw, ok_bind, h1, hit]
      rw [hlist]
    · rw [hit, show h + (k + 1) = (h + 1) + k by omega]
      exact h2

/-- The freshly initialized store is well-formed at head 0. -/
theorem initStore_wf : WfStore initStore 0 := by
  constructor
  · decide
  · intro k hk i hi1 hi2
    fin_cases hk
    · simp at hi2
      omega
    · have hi : i = 1 := by simp at hi2; omega
      subst hi
      decide
    · have hi : i = 1 := by simp at hi2; omega
      subst hi
      decide
  · decide
  · decide
  · intro n hn
    have hn0 : n = 0 := by omega
    subst hn0
    decide
  · intro n hn rest
    have h1 : Nat.repr n ≠ "0" := by
      intro hc
      have h0 : Nat.repr n = Nat.repr 0 := by rw [hc]; decide
      have := repr_injective n 0 h0
      omega
    show lookupFs initStore (["decisions", Nat.repr n] ++ rest) = none
    simp only [initStore, lookupFs, List.cons_append, List.nil_append]
    rw [if_neg (by simp), if_neg (by simp [Ne.symm h1]),
      if_neg (by simp [Ne.symm (repr_ne_HEAD n)])]

/-! ### The snapshot copy loop -/

theorem lookup_copy_dest (cur : Fs) (s d q : FPath) :
    lookupFs (rebaseAll s d cur ++ cur) (d ++ q) =
      match lookupFs cur (s ++ q) with
      | some e => some e
      | none => lookupFs cur (d ++ q) := by
  rw [lookupFs_append, lookupFs_rebaseAll_under]

/-- The copy loop of `fs_snapshot`, over the remaining top-level names:
it succeeds, reproduces the source subtree below the destination for each
remaining name, leaves the source subtree intact, and touches nothing
outside the destination subtrees of the remaining names. -/
theorem snapshot_fold (fs₀ : Fs) (src dst : FPath)
    (hdisj : ∀ a b : FPath, src ++ a ≠ dst ++ b)
    (hclean : ∀ (name : String) (q : FPath) (c : String),
      lookupFs fs₀ (src ++ [name]) = some (.file c) → q ≠ [] →
      lookupFs fs₀ (src ++ name :: q) = none) :
    ∀ (remaining : List String) (cur : Fs),
      remaining.Nodup →
      (∀ name ∈ remaining, ∃ e, lookupFs fs₀ (src ++ [name]) = some e) →
      (∀ q, lookupFs cur (src ++ q) = lookupFs fs₀ (src ++ q)) →
      (∀ name ∈ remaining, ∀ q, lookupFs cur (dst ++ name :: q) = none) →
      ∃ fin, (remaining.foldlM (fun fsa name =>
          if isdirFs fsa (src ++ [name]) then copytree fsa (src ++ [name]) (dst ++ [name])
          else copy2 fsa (src ++ [name]) (dst ++ [name])) cur) = .ok fin ∧
        (∀ q, lookupFs fin (src ++ q) = lookupFs fs₀ (src ++ q)) ∧
        (∀ name ∈ remaining, ∀ q,
          lookupFs fin (dst ++ name :: q) = lookupFs fs₀ (src ++ name :: q)) ∧
        (∀ key, (∀ name ∈ remaining, ¬ (dst ++ [name]) <+: key) →
          lookupFs fin key = lookupFs cur key) := by
  intro remaining
  induction remaining with
  | nil =>
    intro cur _ _ hI1 _
    exact ⟨cur, by rw [List.foldlM_nil]; rfl, hI1, by simp, fun key _ => rfl⟩
  | cons name rest ih =>
    intro cur hnodup hsrc hI1 hI3
    have hnamem : name ∈ name :: rest := List.mem_cons_self _ _
    have hnr : name ∉ rest := (List.nodup_cons.mp hnodup).1
    have hrestnd : rest.Nodup := (List.nodup_cons.mp hnodup).2
    obtain ⟨e, he⟩ := hsrc name hnamem
    have hecur : lookupFs cur (src ++ [name]) = some e := by
      rw [hI1 [name]]
      exact he
    have hd'none : lookupFs cur (dst ++ [name]) = none := by
      have := hI3 name hnamem []
      simpa using this
    cases e with
    | dir =>
      -- the step is a copytree
      have hstep : (if isdirFs cur (src ++ [name])
          then copytree cur (src ++ [name]) (dst ++ [name])
          else copy2 cur (src ++ [name]) (dst ++ [name]))
          = .ok (rebaseAll (src ++ [name]) (dst ++ [name]) cur ++ cur) := by
        rw [if_pos (by rw [isdirFs, hecur]), copytree,
          if_neg (by rw [existsFs, hd'none]; simp)]
      set new := rebaseAll (src ++ [name]) (dst ++ [name]) cur ++ cur with hnew
      have hI1' : ∀ q, lookupFs new (src ++ q) = lookupFs fs₀ (src ++ q) := by
        intro q
        rw [hnew, lookupFs_append, lookupFs_rebaseAll_not_under _ _ _ _ (by
          intro hc
          obtain ⟨t, ht⟩ := hc
          rw [List.append_assoc] at ht
          exact hdisj q (name :: t) (by rw [← ht]; simp)), hI1 q]
      have hI3' : ∀ n2 ∈ rest, ∀ q, lookupFs new (dst ++ n2 :: q) = none := by
        intro n2 hn2 q
        rw [hnew, lookupFs_append, lookupFs_rebaseAll_not_under _ _ _ _ (by
          intro hc
          obtain ⟨t, ht⟩ := hc
          rw [List.append_assoc] at ht
          have := List.append_cancel_left ht
          simp only [List.cons_append, List.nil_append, List.cons.injEq] at this
          exact hnr (this.1 ▸ hn2)), hI3 n2 (List.mem_cons_of_mem _ hn2) q]
      obtain ⟨fin, hfold, hF1, hF2, hFr⟩ := ih new hrestnd
        (fun n2 hn2 => hsrc n2 (List.mem_cons_of_mem _ hn2)) hI1' hI3'
      refine ⟨fin, ?_, hF1, ?_, ?_⟩
      · rw [List.foldlM_cons, hstep, ok_bind, hfold]
      · intro n2 hn2 q
        rcases List.mem_cons.mp hn2 with hn2 | hn2
        · subst hn2
          have hfr : lookupFs fin (dst ++ n2 :: q) = lookupFs new (dst ++ n2 :: q) := by
            apply hFr
            intro n3 hn3 hc
            obtain ⟨t, ht⟩ := hc
            rw [List.append_assoc] at ht
            have := List.append_cancel_left ht
            simp only [List.cons_append, List.nil_append, List.cons.injEq] at this
            exact hnr (this.1 ▸ hn3)
          rw [hfr, hnew]
          have hq : dst ++ n2 :: q = (dst ++ [n2]) ++ q := by simp
          rw [hq, lookup_copy_dest]
          have hsq : (src ++ [n2]) ++ q = src ++ n2 :: q := by simp
          rw [hsq]
          cases hv : lookupFs fs₀ (src ++ n2 :: q) with
          | some e2 =>
            rw [hI1 (n2 :: q), hv]
          | none =>
            rw [hI1 (n2 :: q), hv]
            rw [← hq, hI3 n2 hnamem q]
        · exact hF2 n2 hn2 q
      · intro key hkey
        have hfr : lookupFs fin key = lookupFs new key :=
          hFr key (fun n3 hn3 => hkey n3 (List.mem_cons_of_mem _ hn3))
        rw [hfr, hnew, lookupFs_append,
          lookupFs_rebaseAll_not_under _ _ _ _ (hkey name hnamem)]
    | file c =>
      -- the step is a copy2
      have hstep : (if isdirFs cur (src ++ [name])
          then copytree cur (src ++ [name]) (dst ++ [name])
          else copy2 cur (src ++ [name]) (dst ++ [name]))
          = .ok (setFs cur (dst ++ [name]) (.file c)) := by
        rw [if_neg (by rw [isdirFs, hecur]; simp), copy2, hecur]
      set new := setFs cur (dst ++ [name]) (.file c) with hnew
      have hI1' : ∀ q, lookupFs new (src ++ q) = lookupFs fs₀ (src ++ q) := by
        intro q
        rw [hnew, lookupFs_setFs, if_neg (fun hc => hdisj q [name] hc), hI1 q]
      have hI3' : ∀ n2 ∈ rest, ∀ q, lookupFs new (dst ++ n2 :: q) = none := by
        intro n2 hn2 q
        rw [hnew, lookupFs_setFs, if_neg (by
          intro hc
          have := List.append_cancel_left hc
          simp only [List.cons.injEq] at this
          exact hnr (this.1 ▸ hn2)), hI3 n2 (List.mem_cons_of_mem _ hn2) q]
      obtain ⟨fin, hfold, hF1, hF2, hFr⟩ := ih new hrestnd
        (fun n2 hn2 => hsrc n2 (List.mem_cons_of_mem _ hn2)) hI1' hI3'
      refine ⟨fin, ?_, hF1, ?_, ?_⟩
      · rw [List.foldlM_cons, hstep, ok_bind, hfold]
      · intro n2 hn2 q
        rcases List.mem_cons.mp hn2 with hn2 | hn2
        · subst hn2
          have hfr : lookupFs fin (dst ++ n2 :: q) = lookupFs new (dst ++ n2 :: q) := by
            apply hFr
            intro n3 hn3 hc
            obtain ⟨t, ht⟩ := hc
            rw [List.append_assoc] at ht
            have := List.append_cancel_left ht
            simp only [List.cons_append, List.nil_append, List.cons.injEq] at this
            exact hnr (this.1 ▸ hn3)
          rw [hfr, hnew, lookupFs_setFs]
          cases q with
          | nil =>
            rw [if_pos (by simp)]
            have : src ++ n2 :: ([] : FPath) = src ++ [n2] := by simp
            rw [this, he]
          | cons x xs =>
            rw [if_neg (by
              intro hc
              have := List.append_cancel_left hc
              simp at this)]
            rw [hI3 n2 hnamem (x :: xs),
              hclean n2 (x :: xs) c he (by simp)]
        · exact hF2 n2 hn2 q
      · intro key hkey
        have hfr : lookupFs fin key = lookupFs new key :=
          hFr key (fun n3 hn3 => hkey n3 (List.mem_cons_of_mem _ hn3))
        rw [hfr, hnew, lookupFs_setFs, if_neg (by
          intro hc
          exact hkey name hnamem (hc ▸ List.prefix_refl _))]

theorem repr_ne_dotdot (n : Nat) : Nat.repr n ≠ ".." := by
  intro h
  have h1 := pyInt_repr n
  rw [h] at h1
  have h2 : pyInt ".." = none := by decide
  rw [h2] at h1
  exact Option.noConfusion h1

theorem toString_int_natCast (h : Nat) : toString ((h : Nat) : Int) = Nat.repr h := rfl

theorem comps_plain_pair (s : String) (hne : s.data ≠ []) (hns : '/' ∉ s.data)
    (hnd : s ≠ ".") : comps ("decisions/" ++ s) = ["decisions", s] := by
  rw [comps, splitOnSlash]
  have hdata : ("decisions/" ++ s).data = "decisions".data ++ '/' :: s.data := rfl
  rw [hdata, splitSlash_append "decisions".data _ (by decide), splitSlash_no s.data hns]
  have hs1 : String.mk s.data = s := rfl
  have hsne : s ≠ "" := fun hc => hne (by rw [hc])
  simp only [List.map_cons, List.map_nil, hs1]
  show List.filter _ ["decisions", s] = _
  rw [List.filter_cons, List.filter_cons, List.filter_nil,
    if_pos (by decide), if_pos (decide_eq_true ⟨hsne, hnd⟩)]

/-- Resolving a plain name (no slash, not a dot form) through the sandbox
lands on the two-component key under `decisions`. -/
theorem comps_safe_path_plain (s : String) (hne : s.data ≠ []) (hns : '/' ∉ s.data)
    (hnd : s ≠ ".") (hndd : s ≠ "..") :
    comps (safe_path s) = ["decisions", s] := by
  have hsne : s ≠ "" := fun hc => hne (by rw [hc])
  have hss : strStarts s "/" = false := by
    rw [strStarts]
    cases hd : s.data with
    | nil => exact absurd hd hne
    | cons c cs =>
      have hc : ¬ c = '/' := fun hcc => hns (by rw [hd, hcc]; exact List.mem_cons_self _ _)
      show listStarts (c :: cs) ('/' :: []) = false
      rw [listStarts]
      simp [hc]
  have hj : pyJoin STORAGE_ROOT s = "./decisions/" ++ s := by
    rw [pyJoin, if_neg (by rw [hss]; exact Bool.false_ne_true), if_neg (by decide)]
    show "./decisions" ++ "/" ++ s = "./decisions/" ++ s
    have hdd : ("./decisions" ++ "/" : String) = "./decisions/" := by decide
    rw [hdd]
  have hsp : safe_path s = "decisions/" ++ s := by
    rw [safe_path, hj, pyNormpath]
    have hp0 : ¬ ("./decisions/" ++ s = "") := by
      intro hc
      have h2 : ('.' :: '/' :: ("decisions".data ++ '/' :: s.data) : List Char) = [] :=
        congrArg String.data hc
      exact List.noConfusion h2
    rw [if_neg hp0]
    have c1 : strStarts ("./decisions/" ++ s) "//" = false := rfl
    have c2 : strStarts ("./decisions/" ++ s) "/" = false := rfl
    have hsplit : splitOnSlash ("./decisions/" ++ s) = [".", "decisions", s] := by
      rw [splitOnSlash]
      have hdata : ("./decisions/" ++ s).data
          = ['.'] ++ '/' :: ("decisions".data ++ '/' :: s.data) := rfl
      rw [hdata, splitSlash_append ['.'] _ (by decide),
        splitSlash_append "decisions".data _ (by decide), splitSlash_no s.data hns]
      rfl
    simp only [c1, c2, hsplit, Bool.false_and, Bool.false_eq_true, if_false]
    have e1 : normStep (decide ((0 : Nat) ≠ 0)) [] "." = [] := by decide
    have e2 : normStep (decide ((0 : Nat) ≠ 0)) [] "decisions" = ["decisions"] := by decide
    have e3 : normStep (decide ((0 : Nat) ≠ 0)) ["decisions"] s = ["decisions", s] := by
      rw [normStep, if_neg (by simp [hsne, hnd]), if_pos (by simp [hndd])]
      rfl
    rw [List.foldl_cons, List.foldl_cons, List.foldl_cons, List.foldl_nil, e1, e2, e3]
    have hjoin : joinSlash ["decisions", s] = "decisions" ++ "/" ++ s := rfl
    rw [hjoin]
    have hrep : (String.mk (List.replicate 0 '/') ++ ("decisions" ++ "/" ++ s) : String)
        = "decisions/" ++ s := by
      show ("" ++ ("decisions" ++ "/" ++ s) : String) = "decisions/" ++ s
      have hd2 : ("decisions" ++ "/" : String) = "decisions/" := by decide
      rw [hd2, String.empty_append]
    rw [hrep]
    rw [if_neg (by
      intro hc
      have h2 : ('d' :: 'e' :: 'c' :: 'i' :: 's' :: 'i' :: 'o' :: 'n' :: 's' :: '/' :: s.data
          : List Char) = [] := congrArg String.data hc
      exact List.noConfusion h2)]
  rw [hsp]
  exact comps_plain_pair s hne hns hnd

/-- C3: a snapshot on a well-formed store at head `h` succeeds, allocates
revision `h + 1`, and copies every file of the source revision bit for
bit: each file found under the directory of revision `h` at call time is
found, with identical content, under the directory of revision `h + 1` in
the resulting state. -/
theorem snapshot_preserves_files (fs : Fs) (h : Nat) (hw : WfStore fs h) :
    (fs_snapshot fs).isOk = true ∧
    ∀ fs' n, fs_snapshot fs = .ok (fs', n) →
      n = ((h + 1 : Nat) : Int) ∧
      ∀ (rel : FPath) (c : String), rel ≠ [] →
        lookupFs fs (revKey h ++ rel) = some (.file c) →
        lookupFs fs' (revKey (h + 1) ++ rel) = some (.file c) := by
  have hsrck : comps (safe_path (toString ((h : Nat) : Int))) = revKey h := by
    rw [toString_int_natCast, revKey]
    exact comps_safe_path_plain _ (repr_data_ne_nil h) (repr_no_slash h)
      (repr_ne_dot h) (repr_ne_dotdot h)
  have hdstk : comps (safe_path (toString ((h + 1 : Nat) : Int))) = revKey (h + 1) := by
    rw [toString_int_natCast, revKey]
    exact comps_safe_path_plain _ (repr_data_ne_nil (h + 1)) (repr_no_slash (h + 1))
      (repr_ne_dot (h + 1)) (repr_ne_dotdot (h + 1))
  have hb : ∀ q, lookupFs (bumpFs fs h) (revKey h ++ q) = lookupFs fs (revKey h ++ q) := by
    intro q
    rw [lookupFs_bumpFs, if_neg (revKeyApp_ne_headKey h q), if_neg (fun hc => by
      have h2 := revKey_append_inj h (h + 1) q [] (by rw [List.append_nil]; exact hc)
      omega)]
  have hmk2 : makedirs (bumpFs fs h) (revKey (h + 1)) true = .ok (bumpFs fs h) := by
    rw [show revKey (h + 1) = ["decisions", Nat.repr (h + 1)] from rfl]
    apply makedirs_pair_exist
    · rw [lookupFs_bumpFs, if_neg (by decide), if_neg (by rw [revKey]; simp)]
      exact hw.rootDir
    · rw [show (["decisions", Nat.repr (h + 1)] : FPath) = revKey (h + 1) from rfl,
        lookupFs_bumpFs, if_neg (revKey_ne_headKey _), if_pos rfl]
  have hdisj : ∀ a b : FPath, revKey h ++ a ≠ revKey (h + 1) ++ b := by
    intro a b hc
    have h2 := revKey_append_inj h (h + 1) a b hc
    omega
  have hclean : ∀ (name : String) (q : FPath) (c : String),
      lookupFs (bumpFs fs h) (revKey h ++ [name]) = some (.file c) → q ≠ [] →
      lookupFs (bumpFs fs h) (revKey h ++ name :: q) = none := by
    intro name q c hf hq
    rw [hb] at hf ⊢
    cases hv : lookupFs fs (revKey h ++ name :: q) with
    | none => rfl
    | some e2 =>
      exfalso
      have hkm := key_mem_of_lookup fs _ e2 hv
      have hlen : (revKey h).length = 2 := by rw [revKey]; rfl
      have hlq : 3 < (revKey h ++ name :: q).length := by
        rw [List.length_append, hlen]
        cases q with
        | nil => exact absurd rfl hq
        | cons y ys => simp; omega
      have hi := hw.pfxClosed _ hkm 3 (by omega) hlq
      have htake : (revKey h ++ name :: q).take 3 = revKey h ++ [name] := by
        rw [show 3 = (revKey h).length + 1 by rw [hlen], List.take_append]
        simp
      rw [htake, hf] at hi
      exact Entry.noConfusion (Option.some.inj hi)
  have hnamesnd : (listdir (bumpFs fs h) (revKey h)).Nodup := by
    apply listdir_nodup
    rw [bumpFs]
    exact nodup_setFs _ _ _ (nodup_setFs _ _ _ hw.nodupKeys)
  have hsrcex : ∀ name ∈ listdir (bumpFs fs h) (revKey h),
      ∃ e, lookupFs (bumpFs fs h) (revKey h ++ [name]) = some e := by
    intro name hm
    obtain ⟨e, he⟩ := (mem_listdir (bumpFs fs h) (revKey h) name).mp hm
    exact Option.isSome_iff_exists.mp (lookup_isSome_of_mem (bumpFs fs h) _ e he)
  have hI3 : ∀ name ∈ listdir (bumpFs fs h) (revKey h),
      ∀ q, lookupFs (bumpFs fs h) (revKey (h + 1) ++ name :: q) = none := by
    intro name _ q
    rw [lookupFs_bumpFs, if_neg (revKeyApp_ne_headKey _ _), if_neg (fun hc => by
      have h2 := revKey_append_inj (h + 1) (h + 1) (name :: q) []
        (by rw [List.append_nil]; exact hc)
      simp at h2)]
    exact hw.aboveAbsent (h + 1) (by omega) (name :: q)
  obtain ⟨fin, hfold, hF1, hF2, hFr⟩ := snapshot_fold (bumpFs fs h) (revKey h) (revKey (h + 1))
    hdisj hclean (listdir (bumpFs fs h) (revKey h)) (bumpFs fs h) hnamesnd hsrcex
    (fun q => rfl) hI3
  have heq : fs_snapshot fs = .ok (fin, ((h + 1 : Nat) : Int)) := by
    simp only [fs_snapshot, current_rev_of_head fs h hw.headFile, ok_bind,
      bump_rev_eq fs h hw, hsrck, hdstk, hmk2, hfold]
  refine ⟨by rw [heq]; rfl, ?_⟩
  intro fs' n hsn
  rw [heq] at hsn
  simp only [Except.ok.injEq, Prod.mk.injEq] at hsn
  obtain ⟨hfs', hn⟩ := hsn
  refine ⟨hn.symm, ?_⟩
  intro rel c hrel hfile
  cases rel with
  | nil => exact absurd rfl hrel
  | cons name q =>
    have hnm : name ∈ listdir (bumpFs fs h) (revKey h) := by
      apply (mem_listdir _ _ _).mpr
      have hsome : ∃ e, lookupFs fs (revKey h ++ [name]) = some e := by
        cases q with
        | nil => exact ⟨.file c, by simpa using hfile⟩
        | cons y ys =>
          have hkm := key_mem_of_lookup fs _ _ hfile
          have hlen : (revKey h).length = 2 := by rw [revKey]; rfl
          have hlq : 3 < (revKey h ++ name :: y :: ys).length := by
            rw [List.length_append, hlen]
            simp
            omega
          have hi := hw.pfxClosed _ hkm 3 (by omega) hlq
          have htake : (revKey h ++ name :: y :: ys).take 3 = revKey h ++ [name] := by
            rw [show 3 = (revKey h).length + 1 by rw [hlen], List.take_append]
            simp
          rw [htake] at hi
          exact ⟨.dir, hi⟩
      obtain ⟨e, he⟩ := hsome
      have hb2 : lookupFs (bumpFs fs h) (revKey h ++ [name]) = some e := by
        rw [hb [name]]
        exact he
      exact ⟨e, mem_of_lookup _ _ _ hb2⟩
    rw [← hfs']
    rw [hF2 name hnm q, hb (name :: q)]
    exact hfile

/-- The store `wStore3` is well-formed at head 0. -/
theorem wStore3_wf : WfStore wStore3 0 := by
  constructor
  · decide
  · intro k hk i hi1 hi2
    fin_cases hk
    · simp at hi2
      omega
    · have hi : i = 1 := by simp at hi2; omega
      subst hi
      decide
    · have hi : i = 1 ∨ i = 2 := by simp at hi2; omega
      rcases hi with hi | hi <;> (subst hi; decide)
    · have hi : i = 1 := by simp at hi2; omega
      subst hi
      decide
  · decide
  · decide
  · intro n hn
    have hn0 : n = 0 := by omega
    subst hn0
    decide
  · intro n hn rest
    have h1 : Nat.repr n ≠ "0" := by
      intro hc
      have h0 : Nat.repr n = Nat.repr 0 := by rw [hc]; decide
      have := repr_injective n 0 h0
      omega
    show lookupFs wStore3 (["decisions", Nat.repr n] ++ rest) = none
    simp only [wStore3, lookupFs, List.cons_append, List.nil_append]
    rw [if_neg (by simp), if_neg (by simp [Ne.symm h1]), if_neg (by simp [Ne.symm h1]),
      if_neg (by simp [Ne.symm (repr_ne_HEAD n)])]

/-- Witness for C3: snapshotting a store whose revision 0 holds the file
`a` reproduces that file under revision 1. -/
theorem snapshot_preserves_files_witness :
    (fs_snapshot wStore3).isOk = true ∧
    lookupFs wSnapFs (revKey 1 ++ ["a"]) = some (.file "A") :=
  ⟨(snapshot_preserves_files wStore3 0 wStore3_wf).1,
   ((snapshot_preserves_files wStore3 0 wStore3_wf).2 wSnapFs 1 (by decide)).2
     ["a"] "A" (by decide) (by decide)⟩

/-- Witness for C2: two successive allocations on the fresh store return
exactly 1 then 2, and the final store records HEAD 2. -/
theorem bump_rev_allocation_witness :
    allocCalls initStore 2 =
      .ok (bumpIterFs initStore 0 2,
        (List.range 2).map (fun i : Nat => ((0 + 1 + i : Nat) : Int))) ∧
    lookupFs (bumpIterFs initStore 0 2) (comps head_path) = some (.file (Nat.repr 2)) :=
  ⟨(bump_rev_allocation initStore 0 initStore_wf 2).1,
   (bump_rev_allocation initStore 0 initStore_wf 2).2.headFile⟩

theorem lexLE_trans : ∀ (as bs cs : List Char),
    lexLE as bs = true → lexLE bs cs = true → lexLE as cs = true := by
  intro as
  induction as with
  | nil => intro bs cs _ _; rfl
  | cons a as ih =>
    intro bs cs h1 h2
    cases bs with
    | nil => exact absurd h1 (by rw [lexLE]; simp)
    | cons b bs =>
      cases cs with
      | nil => exact absurd h2 (by rw [lexLE]; simp)
      | cons c cs =>
        rw [lexLE] at h1 h2 ⊢
        by_cases hab : a.toNat = b.toNat
        · rw [if_pos hab] at h1
          by_cases hbc : b.toNat = c.toNat
          · rw [if_pos hbc] at h2
            rw [if_pos (hab.trans hbc)]
            exact ih bs cs h1 h2
          · rw [if_neg hbc] at h2
            simp only [decide_eq_true_eq] at h2
            rw [if_neg (by omega)]
            simp only [decide_eq_true_eq]
            omega
        · rw [if_neg hab] at h1
          simp only [decide_eq_true_eq] at h1
          by_cases hbc : b.toNat = c.toNat
          · rw [if_neg (by omega)]
            simp only [decide_eq_true_eq]
            omega
          · rw [if_neg hbc] at h2
            simp only [decide_eq_true_eq] at h2
            rw [if_neg (by omega)]
            simp only [decide_eq_true_eq]
            omega

theorem lexLE_total : ∀ (as bs : List Char), lexLE as bs = true ∨ lexLE bs as = true := by
  intro as
  induction as with
  | nil => intro bs; exact Or.inl rfl
  | cons a as ih =>
    intro bs
    cases bs with
    | nil => exact Or.inr rfl
    | cons b bs =>
      rw [lexLE, lexLE]
      by_cases hab : a.toNat = b.toNat
      · rw [if_pos hab, if_pos hab.symm]
        exact ih bs
      · rw [if_neg hab, if_neg (fun hc => hab hc.symm)]
        simp only [decide_eq_true_eq]
        omega

theorem nodeKeyLE_trans (a b c : ApiNode) (h1 : nodeKeyLE a b = true)
    (h2 : nodeKeyLE b c = true) : nodeKeyLE a c = true := by
  simp only [nodeKeyLE, Bool.or_eq_true, Bool.and_eq_true, decide_eq_true_eq] at h1 h2 ⊢
  rcases h1 with h1 | ⟨h1a, h1b⟩ <;> rcases h2 with h2 | ⟨h2a, h2b⟩
  · exact Or.inl (by omega)
  · exact Or.inl (by omega)
  · exact Or.inl (by omega)
  · exact Or.inr ⟨by omega, lexLE_trans _ _ _ h1b h2b⟩

theorem nodeKeyLE_total (a b : ApiNode) : nodeKeyLE a b = true ∨ nodeKeyLE b a = true := by
  simp only [nodeKeyLE, Bool.or_eq_true, Bool.and_eq_true, decide_eq_true_eq]
  rcases Nat.lt_trichotomy (nodeRank a) (nodeRank b) with h | h | h
  · exact Or.inl (Or.inl h)
  · rcases lexLE_total (pyLower (ApiNode.name a)).data (pyLower (ApiNode.name b)).data with h2 | h2
    · exact Or.inl (Or.inr ⟨h, h2⟩)
    · exact Or.inr (Or.inr ⟨h.symm, h2⟩)
  · exact Or.inr (Or.inl h)

instance : IsTotal ApiNode NodeLE := ⟨fun a b => nodeKeyLE_total a b⟩

instance : IsTrans ApiNode NodeLE := ⟨fun a b c => nodeKeyLE_trans a b c⟩

theorem pairwiseLE_of_pairwise (l : List ApiNode) (h : l.Pairwise NodeLE) :
    pairwiseLE l = true := by
  induction l with
  | nil => rfl
  | cons a l ih =>
    rw [List.pairwise_cons] at h
    rw [pairwiseLE, Bool.and_eq_true]
    exact ⟨List.all_eq_true.mpr (fun b hb => h.1 b hb), ih h.2⟩

theorem listSorted_eq_all (l : List ApiNode) : listSorted l = l.all nodeSorted := by
  induction l with
  | nil => rfl
  | cons a l ih => rw [listSorted, ih, List.all_cons]

theorem mem_entryList (rel : String) (es : List DiskEntry) (y : ApiNode)
    (h : y ∈ entryList rel es) : ∃ e ∈ es, y = entryNode rel e := by
  induction es with
  | nil => simp [entryList] at h
  | cons e es ih =>
    rw [entryList] at h
    rcases List.mem_cons.mp h with h1 | h1
    · exact ⟨e, List.mem_cons_self _ _, h1⟩
    · obtain ⟨e2, he2, hy⟩ := ih h1
      exact ⟨e2, List.mem_cons_of_mem _ he2, hy⟩

theorem sortNodes_sorted (l : List ApiNode) : (sortNodes l).Pairwise NodeLE :=
  List.sorted_insertionSort NodeLE l

theorem mem_sortNodes (l : List ApiNode) (y : ApiNode) (h : y ∈ sortNodes l) : y ∈ l :=
  (List.perm_insertionSort NodeLE l).mem_iff.mp h

theorem entryNode_sorted_fuel (N : Nat) :
    ∀ (e : DiskEntry), sizeOf e ≤ N → ∀ rel, nodeSorted (entryNode rel e) = true := by
  induction N using Nat.strong_induction_on with
  | _ N ih =>
    intro e hs rel
    cases e with
    | file n m sz => rfl
    | dir n m r es =>
      rw [entryNode, nodeSorted, Bool.and_eq_true]
      by_cases hr : r = true
      · rw [if_pos hr]
        constructor
        · exact pairwiseLE_of_pairwise _ (sortNodes_sorted _)
        · rw [listSorted_eq_all]
          apply List.all_eq_true.mpr
          intro y hy
          obtain ⟨e2, he2, hye⟩ := mem_entryList _ _ y (mem_sortNodes _ y hy)
          rw [hye]
          have hlt : sizeOf e2 < sizeOf (DiskEntry.dir n m r es) := by
            have h1 := List.sizeOf_lt_of_mem he2
            simp only [DiskEntry.dir.sizeOf_spec]
            omega
          exact ih (sizeOf e2) (by omega) e2 (le_refl _) _
      · rw [if_neg hr]
        exact ⟨rfl, rfl⟩

theorem build_tree_forestSorted (r : Bool) (es : List DiskEntry) (rel : String) :
    forestSorted (build_tree r es rel) = true := by
  rw [build_tree, forestSorted]
  by_cases hr : r = true
  · rw [if_pos hr, Bool.and_eq_true]
    constructor
    · exact pairwiseLE_of_pairwise _ (sortNodes_sorted _)
    · rw [listSorted_eq_all]
      apply List.all_eq_true.mpr
      intro y hy
      obtain ⟨e2, _, hye⟩ := mem_entryList _ _ y (mem_sortNodes _ y hy)
      rw [hye]
      exact entryNode_sorted_fuel (sizeOf e2) e2 (le_refl _) rel
  · rw [if_neg hr]
    rfl

/-- C4: the listing `build_tree` produces is ordered at every level with
directories before files and case-insensitive alphabetical order within
each group, and it is a deterministic function of the on-disk state:
listing equal states yields identical node sequences. -/
theorem build_tree_sorted_deterministic (r r2 : Bool) (es es2 : List DiskEntry)
    (rel rel2 : String) (h1 : r2 = r) (h2 : es2 = es) (h3 : rel2 = rel) :
    forestSorted (build_tree r es rel) = true ∧
    build_tree r2 es2 rel2 = build_tree r es rel := by
  subst h1
  subst h2
  subst h3
  exact ⟨build_tree_forestSorted _ _ _, rfl⟩

/-- Witness for C4: the concrete listing is sorted at every level,
reproducibly, with the expected order: the directories `sub`, `Z` first
(case-insensitively alphabetical), then the files `a`, `b.TXT`. -/
theorem build_tree_sorted_deterministic_witness :
    (forestSorted (build_tree true wTree "") = true ∧
      build_tree true wTree "" = build_tree true wTree "") ∧
    (build_tree true wTree "").map ApiNode.name = ["sub", "Z", "a", "b.TXT"] :=
  ⟨build_tree_sorted_deterministic true true wTree wTree "" "" rfl rfl rfl, by decide⟩

end Fileserver
